import Mathlib

/-!
Verification of the screenplay scene-segmentation and entity-extraction core
(`scene_segmenter.py`, `nlp_analyzer.py`) against its specification.

The Python string primitives used by the code (str.strip, str.split,
str.upper/lower/title/capitalize, str.isupper, substring `in`, regular
expressions of the fixed patterns appearing in the source) are embedded as
executable functions over `List Char` / `String`.  Character classes cover
ASCII and the Cyrillic alphabet (А-Я, а-я, Ё, ё), the only cased alphabets
that occur in the source's patterns, keyword lists and the inputs considered;
`\d` is modelled as the ASCII digits and `\s` as Python's ASCII whitespace.
-/

namespace Screenplay

/-- Whitespace as recognized by Python's `str.strip`, `str.split()` and `\s`
(ASCII part: space, tab, newline, carriage return, vertical tab, form feed). -/
def isPyWs (c : Char) : Bool :=
  c = ' ' || c = '\t' || c = '\n' || c = '\r' || c = '\x0b' || c = '\x0c'

/-- ASCII upper-case letter. -/
def isAsciiUpper (c : Char) : Bool := 'A' ≤ c && c ≤ 'Z'

/-- ASCII lower-case letter. -/
def isAsciiLower (c : Char) : Bool := 'a' ≤ c && c ≤ 'z'

/-- Cyrillic upper-case letter (А-Я plus Ё). -/
def isCyrUpper (c : Char) : Bool := ('А' ≤ c && c ≤ 'Я') || c = 'Ё'

/-- Cyrillic lower-case letter (а-я plus ё). -/
def isCyrLower (c : Char) : Bool := ('а' ≤ c && c ≤ 'я') || c = 'ё'

/-- Upper-case (cased) letter of the alphabets we model. -/
def isUpperCh (c : Char) : Bool := isAsciiUpper c || isCyrUpper c

/-- Lower-case (cased) letter of the alphabets we model. -/
def isLowerCh (c : Char) : Bool := isAsciiLower c || isCyrLower c

/-- Cased character (Python's notion, restricted to ASCII + Cyrillic). -/
def isCasedCh (c : Char) : Bool := isUpperCh c || isLowerCh c

/-- Upper-case a character as Python's `str.upper` does (ASCII + Cyrillic). -/
def toUpperCh (c : Char) : Char :=
  if isAsciiLower c then Char.ofNat (c.toNat - 32)
  else if 'а' ≤ c && c ≤ 'я' then Char.ofNat (c.toNat - 32)
  else if c = 'ё' then 'Ё'
  else c

/-- Lower-case a character as Python's `str.lower` does (ASCII + Cyrillic). -/
def toLowerCh (c : Char) : Char :=
  if isAsciiUpper c then Char.ofNat (c.toNat + 32)
  else if 'А' ≤ c && c ≤ 'Я' then Char.ofNat (c.toNat + 32)
  else if c = 'Ё' then 'ё'
  else c

/-- Python `str.upper` on a character list. -/
def pyUpperL (s : List Char) : List Char := s.map toUpperCh

/-- Python `str.lower` on a character list. -/
def pyLowerL (s : List Char) : List Char := s.map toLowerCh

/-- Python `str.isupper`: at least one cased character and every cased
character upper-case. -/
def pyIsUpperL (s : List Char) : Bool :=
  s.any isCasedCh && s.all (fun c => !isCasedCh c || isUpperCh c)

/-- Python `str.strip()` (no argument): drop leading and trailing whitespace. -/
def stripL (s : List Char) : List Char :=
  ((s.dropWhile isPyWs).reverse.dropWhile isPyWs).reverse

/-- Accumulator worker for `tokensL` (Python `str.split()` without argument):
`acc` holds the characters of the token currently being read, reversed. -/
def tokensAux : List Char → List Char → List (List Char)
  | [], acc => if acc.isEmpty then [] else [acc.reverse]
  | c :: cs, acc =>
    if isPyWs c then
      if acc.isEmpty then tokensAux cs [] else acc.reverse :: tokensAux cs []
    else tokensAux cs (c :: acc)

/-- Python `str.split()` without argument: maximal runs of non-whitespace. -/
def tokensL (s : List Char) : List (List Char) := tokensAux s []

/-- Fuel-indexed worker for `splitSepL` (structural recursion so that the
kernel can evaluate it); the fuel always dominates the list length, and a
matched separator consumes at least one character. -/
def splitSepFuel (sep : List Char) : Nat → List Char → List (List Char)
  | 0, _ => [[]]
  | f + 1, s =>
    if sep ≠ [] ∧ sep.isPrefixOf s then
      [] :: splitSepFuel sep f (s.drop sep.length)
    else
      match s with
      | [] => [[]]
      | c :: t =>
        match splitSepFuel sep f t with
        | [] => [[c]]
        | p :: rest => (c :: p) :: rest

/-- Python `str.split(sep)` with a non-empty separator: non-overlapping
leftmost occurrences of `sep` split the list, empty pieces kept. -/
def splitSepL (sep s : List Char) : List (List Char) :=
  splitSepFuel sep s.length s

/-- Python `sep.join(pieces)`. -/
def joinSepL (sep : List Char) : List (List Char) → List Char
  | [] => []
  | [p] => p
  | p :: q :: ps => p ++ sep ++ joinSepL sep (q :: ps)

/-- Python substring test `sub in s`. -/
def isSubL (sub : List Char) : List Char → Bool
  | [] => sub.isEmpty
  | c :: t => sub.isPrefixOf (c :: t) || isSubL sub t

/-- Case-insensitive prefix test, folding through `toLowerCh` the way
`re.IGNORECASE` matches the literal patterns of the source. -/
def ciPrefixL : List Char → List Char → Bool
  | [], _ => true
  | _ :: _, [] => false
  | p :: ps, c :: cs => (toLowerCh p == toLowerCh c) && ciPrefixL ps cs

/-- ASCII digit, the `\d` of the source's patterns. -/
def isDigitCh (c : Char) : Bool := '0' ≤ c && c ≤ '9'

/-- Value of a digit run, as Python's `int` reads it. -/
def digitsToNat (ds : List Char) : Nat :=
  ds.foldl (fun a c => 10 * a + (c.toNat - 48)) 0

/-- Python `str.capitalize`: first character upper-cased, the rest lowered. -/
def pyCapitalizeL : List Char → List Char
  | [] => []
  | c :: t => toUpperCh c :: pyLowerL t

/-- Worker for `pyTitleL`; the flag records whether the previous character
was cased. -/
def pyTitleAux : List Char → Bool → List Char
  | [], _ => []
  | c :: t, prevCased =>
    (if isCasedCh c then (if prevCased then toLowerCh c else toUpperCh c) else c)
      :: pyTitleAux t (isCasedCh c)

/-- Python `str.title`: each cased character is upper-cased when it starts a
cased run and lower-cased otherwise. -/
def pyTitleL (s : List Char) : List Char := pyTitleAux s false

/-- String wrapper for `stripL`. -/
def pyStrip (s : String) : String := ⟨stripL s.data⟩

/-- String wrapper for `pyUpperL`. -/
def pyUpper (s : String) : String := ⟨pyUpperL s.data⟩

/-- String wrapper for `pyLowerL`. -/
def pyLower (s : String) : String := ⟨pyLowerL s.data⟩

/-- String wrapper for `pyIsUpperL`. -/
def pyIsUpper (s : String) : Bool := pyIsUpperL s.data

/-- String wrapper for `pyTitleL`. -/
def pyTitle (s : String) : String := ⟨pyTitleL s.data⟩

/-- String wrapper for `pyCapitalizeL`. -/
def pyCapitalize (s : String) : String := ⟨pyCapitalizeL s.data⟩

/-- Python `str.split()` returning strings. -/
def pySplitWs (s : String) : List String := (tokensL s.data).map (⟨·⟩)

/-- Python `str.split(sep)` returning strings. -/
def pySplit (sep : String) (s : String) : List String :=
  (splitSepL sep.data s.data).map (⟨·⟩)

/-- Python `sep.join(l)` on strings. -/
def pyJoin (sep : String) (l : List String) : String :=
  ⟨joinSepL sep.data (l.map (·.data))⟩

/-- Python `sub in s` on strings. -/
def pyContains (s sub : String) : Bool := isSubL sub.data s.data

/-!
SceneSegmenter (`scene_segmenter.py`).  The four entries of
`self.scene_patterns` and the helper patterns are embedded as operational
matchers reproducing `re.search` semantics (leftmost start position, ordered
alternation, greedy quantifiers with backtracking) for the constructs each
pattern uses.  At every start position at most one alternative of each
marker alternation can match, since the alternatives differ at a character
inside their common prefix, so ordered alternation reduces to trying each
alternative in turn.
-/

/-- Completion `\s*(\d+)` after a matched marker: skip whitespace, then a
non-empty digit run, captured greedily.  Backtracking is vacuous: no digit is
whitespace, so only the maximal whitespace skip can be followed by a digit. -/
def wsThenDigits (s : List Char) : Option Nat :=
  let r := s.dropWhile isPyWs
  let ds := r.takeWhile isDigitCh
  if ds.isEmpty then none else some (digitsToNat ds)

/-- One start position of pattern 1, `(?:СЦЕНА|Сцена|сцена|СЦ\.|Сц\.)\s*(\d+)`
with `re.IGNORECASE`: the five alternatives fold to case-insensitive "сцена"
or "сц." (exclusive at a fixed position: they differ at their third
character). -/
def scenePat1At (s : List Char) : Option Nat :=
  if ciPrefixL "сцена".data s then wsThenDigits (s.drop 5)
  else if ciPrefixL "сц.".data s then wsThenDigits (s.drop 3)
  else none

/-- Pattern 1 searched at every start position, leftmost match first. -/
def scenePat1 : List Char → Option Nat
  | [] => none
  | c :: t =>
    match scenePat1At (c :: t) with
    | some n => some n
    | none => scenePat1 t

/-- Pattern 2, `^(\d+)\.\s*(?:ИНТЕРЬЕР|ЭКСТЕРЬЕР|ИНТ\.|ЭКС\.)` with
`re.IGNORECASE`, anchored: the greedy `\d+` must be the maximal leading digit
run (a shorter run leaves a digit where `\.` is required). -/
def scenePat2 (s : List Char) : Option Nat :=
  let ds := s.takeWhile isDigitCh
  if ds.isEmpty then none
  else
    match s.drop ds.length with
    | '.' :: r =>
      let r2 := r.dropWhile isPyWs
      if ciPrefixL "интерьер".data r2 || ciPrefixL "экстерьер".data r2
          || ciPrefixL "инт.".data r2 || ciPrefixL "экс.".data r2 then
        some (digitsToNat ds)
      else none
    | _ => none

/-- Pattern 3, `(?:№|#)\s*(\d+)`, searched at every start position. -/
def scenePat3 : List Char → Option Nat
  | [] => none
  | c :: t =>
    if c = '№' || c = '#' then
      match wsThenDigits t with
      | some n => some n
      | none => scenePat3 t
    else scenePat3 t

/-- Time-of-day alternation of pattern 4,
`(?:DAY|NIGHT|MORNING|EVENING|ДЕНЬ|НОЧЬ|УТРО|ВЕЧЕР)` case-insensitively. -/
def timeKwPrefix (s : List Char) : Bool :=
  ciPrefixL "day".data s || ciPrefixL "night".data s
    || ciPrefixL "morning".data s || ciPrefixL "evening".data s
    || ciPrefixL "день".data s || ciPrefixL "ночь".data s
    || ciPrefixL "утро".data s || ciPrefixL "вечер".data s

/-- Character class `[A-ZА-ЯЁ\s]` under `re.IGNORECASE`: any cased letter of
the modelled alphabets, or whitespace. -/
def isPat4Class (c : Char) : Bool := isPyWs c || isCasedCh c

/-- Pattern 4,
`^(?:INT\.|EXT\.)\s+[A-ZА-ЯЁ\s]+-\s*(?:DAY|NIGHT|MORNING|EVENING|ДЕНЬ|НОЧЬ|УТРО|ВЕЧЕР)`
with `re.IGNORECASE`, anchored, no capture group.  `\s+[A-ZА-ЯЁ\s]+` together
consume the maximal class run after the marker (whitespace is inside the
class, so backtracking only requires the run to start with whitespace and
have length at least two); the run cannot cross `-`, so the character right
after it must be the literal dash. -/
def scenePat4 (s : List Char) : Bool :=
  if ciPrefixL "int.".data s || ciPrefixL "ext.".data s then
    let r := s.drop 4
    match r with
    | [] => false
    | c :: _ =>
      if isPyWs c then
        let run := r.takeWhile isPat4Class
        if 2 ≤ run.length then
          match r.drop run.length with
          | '-' :: r2 => timeKwPrefix (r2.dropWhile isPyWs)
          | _ => false
        else false
      else false
  else false

/-- Marker alternation `(?:ИНТЕРЬЕР|ЭКСТЕРЬЕР|ИНТ\.|ЭКС\.|INT\.|EXT\.)` of
`location_time_pattern` (and of the prefix-removal in `_extract_location`),
case-insensitively; returns the matched marker's length. -/
def locTimeMarkerAt (s : List Char) : Option Nat :=
  if ciPrefixL "интерьер".data s then some 8
  else if ciPrefixL "экстерьер".data s then some 9
  else if ciPrefixL "инт.".data s then some 4
  else if ciPrefixL "экс.".data s then some 4
  else if ciPrefixL "int.".data s then some 4
  else if ciPrefixL "ext.".data s then some 4
  else none

/-- Completion `\s+([^-\n]+)\s*-\s*([^\n]+)` of `location_time_pattern` after
a matched marker, for single-line inputs (the argument never contains a
newline, so `[^-\n]` is "anything but the dash").  Writing `S` for the
characters strictly before the first dash: the pattern matches when `S`
starts with whitespace and has a second character, and something follows the
dash; both captures are read off up to the later `.strip()`, which erases the
ambiguity in how `\s+`/`\s*` and the greedy classes share the whitespace. -/
def locTimeComplete (rest : List Char) : Option (String × String) :=
  match rest with
  | [] => none
  | c :: _ =>
    if isPyWs c then
      let s := rest.takeWhile (fun d => d ≠ '-')
      if 2 ≤ s.length && s.length < rest.length then
        let t := rest.drop (s.length + 1)
        if t.isEmpty then none
        else some (⟨stripL s⟩, ⟨stripL t⟩)
      else none
    else none

/-- Search of `location_time_pattern` over the line, leftmost marker whose
completion succeeds. -/
def locTimeScan : List Char → Option (String × String)
  | [] => none
  | c :: t =>
    match locTimeMarkerAt (c :: t) with
    | some k =>
      match locTimeComplete ((c :: t).drop k) with
      | some lt => some lt
      | none => locTimeScan t
    | none => locTimeScan t

/-- Keyword list of `_looks_like_scene_header`. -/
def headerKeywords : List String :=
  ["ИНТЕРЬЕР", "ЭКСТЕРЬЕР", "ИНТ.", "ЭКС.", "INT.", "EXT.",
   "ДЕНЬ", "НОЧЬ", "УТРО", "ВЕЧЕР", "DAY", "NIGHT"]

/-- SceneSegmenter's `_looks_like_scene_header(line)`: a short line (at most
10 whitespace tokens) passing `str.isupper` and containing one of the
keywords.  Note the caller passes `line.upper()`, not the original line. -/
def looksLikeSceneHeader (line : String) : Bool :=
  if (tokensL line.data).length ≤ 10 && pyIsUpperL line.data then
    headerKeywords.any (fun kw => isSubL kw.data line.data)
  else false

/-- Length of the whole match of the prefix-removal pattern's tail
`\s*[.:]?\s*` after a marker, all three parts greedy (deterministic: no
character is consumed twice and nothing after constrains them). -/
def subTailLen (r : List Char) : Nat :=
  let w1 := (r.takeWhile isPyWs).length
  match r.drop w1 with
  | c :: r2 =>
    if c = '.' || c = ':' then w1 + 1 + (r2.takeWhile isPyWs).length
    else w1
  | [] => w1

/-- Fuel-indexed worker for `removeMarkers` (structural recursion for kernel
evaluation): the fuel dominates the list length, and a matched marker
consumes at least its own four characters. -/
def removeMarkersFuel : Nat → List Char → List Char
  | 0, s => s
  | _ + 1, [] => []
  | f + 1, c :: t =>
    match locTimeMarkerAt (c :: t) with
    | some k =>
      let rest := (c :: t).drop k
      removeMarkersFuel f (rest.drop (subTailLen rest))
    | none => c :: removeMarkersFuel f t

/-- The `re.sub` of `_extract_location`: every non-overlapping occurrence of
`(?:ИНТЕРЬЕР|ЭКСТЕРЬЕР|ИНТ\.|ЭКС\.|INT\.|EXT\.)\s*[.:]?\s*` (case-insensitive)
is removed, scanning left to right and resuming after each removal. -/
def removeMarkers (s : List Char) : List Char := removeMarkersFuel s.length s

/-- SceneSegmenter's `_extract_location`: strip the interior/exterior marker
prefixes, then take `^([^-\n]+)` (text before the first dash); if that group
is empty the search fails and the stripped remainder of the substituted line
is returned. -/
def extractLocationSeg (line : String) : String :=
  let cleaned := removeMarkers line.data
  let p := cleaned.takeWhile (fun c => c ≠ '-' && c ≠ '\n')
  if p.isEmpty then ⟨stripL cleaned⟩ else ⟨stripL p⟩

/-- Ordered keyword table of SceneSegmenter's `_extract_time_of_day`
(insertion order of the Python dict literal). -/
def segTimeKeywords : List (String × String) :=
  [("ДЕНЬ", "День"), ("НОЧЬ", "Ночь"), ("УТРО", "Утро"), ("ВЕЧЕР", "Вечер"),
   ("РАССВЕТ", "Рассвет"), ("ЗАКАТ", "Закат"),
   ("DAY", "День"), ("NIGHT", "Ночь"), ("MORNING", "Утро"), ("EVENING", "Вечер")]

/-- SceneSegmenter's `_extract_time_of_day`: first table entry whose key
occurs in the upper-cased line. -/
def extractTimeOfDaySeg (line : String) : String :=
  match segTimeKeywords.find? (fun kv => isSubL kv.1.data (pyUpperL line.data)) with
  | some kv => kv.2
  | none => ""

/-- Interior/exterior decision on an upper-cased line, as written twice in
the source (inside `_is_scene_header` and as `_extract_int_ext`). -/
def intExtFromUpper (lineUpper : List Char) : String :=
  if isSubL "ИНТЕРЬЕР".data lineUpper || isSubL "ИНТ.".data lineUpper
      || isSubL "INT.".data lineUpper then "Интерьер"
  else if isSubL "ЭКСТЕРЬЕР".data lineUpper || isSubL "ЭКС.".data lineUpper
      || isSubL "EXT.".data lineUpper then "Экстерьер"
  else ""

/-- SceneSegmenter's `_extract_int_ext`. -/
def extractIntExtSeg (line : String) : String :=
  intExtFromUpper (pyUpperL line.data)

/-- Result dictionary of `_is_scene_header`. -/
structure HeaderMatch where
  number : Option Nat
  location : String
  time_of_day : String
  int_ext : String
deriving Repr, DecidableEq

/-- The ordered walk over `self.scene_patterns`, first match wins; rules 1-3
always capture their numeral group, rule 4 has no group, so
`int(match.group(1)) if match.groups() else None` stores `None` for it. -/
def patternNumber (line : List Char) : Option (Option Nat) :=
  match scenePat1 line with
  | some n => some (some n)
  | none =>
    match scenePat2 line with
    | some n => some (some n)
    | none =>
      match scenePat3 line with
      | some n => some (some n)
      | none => if scenePat4 line then some none else none

/-- SceneSegmenter's `_is_scene_header`: returns the result dictionary when a
pattern matches (location and time filled from `location_time_pattern` when
it matches, interior/exterior from the upper-cased line only in that case),
else falls back to the loose heuristic applied to the upper-cased line. -/
def isSceneHeader (line : String) : Option HeaderMatch :=
  match patternNumber line.data with
  | some num =>
    match locTimeScan line.data with
    | some lt =>
      some { number := num, location := lt.1, time_of_day := lt.2,
             int_ext := intExtFromUpper (pyUpperL line.data) }
    | none =>
      some { number := num, location := "", time_of_day := "", int_ext := "" }
  | none =>
    if looksLikeSceneHeader (pyUpper line) then
      some { number := none, location := extractLocationSeg line,
             time_of_day := extractTimeOfDaySeg line,
             int_ext := extractIntExtSeg line }
    else none

/-- One finalized scene record.  `span` is a ghost field recording the exact
value of the source's `current_scene_lines` list (for the fallback scenes,
which have no such list, it is empty): `text` is always the stripped
newline-join of `span` on the header path. -/
structure Scene where
  scene_number : Option Nat
  header : String
  line_start : Nat
  location : String
  time_of_day : String
  interior_exterior : String
  text : String
  word_count : Nat
  span : List String
deriving Repr, DecidableEq

/-- The fields of `current_scene` between its creation and finalization. -/
structure OpenScene where
  scene_number : Option Nat
  header : String
  line_start : Nat
  location : String
  time_of_day : String
  interior_exterior : String
deriving Repr, DecidableEq

/-- Finalization of a scene: `text` is the stripped newline-join of the
accumulated lines and `word_count` its whitespace-token count. -/
def finalizeScene (o : OpenScene) (ls : List String) : Scene :=
  let t := pyStrip (pyJoin "\n" ls)
  { scene_number := o.scene_number, header := o.header,
    line_start := o.line_start, location := o.location,
    time_of_day := o.time_of_day, interior_exterior := o.interior_exterior,
    text := t, word_count := (pySplitWs t).length, span := ls }

/-- The line loop of `SceneSegmenter.segment`: the arguments after the lines
are the 0-based index `i`, `current_scene`, `current_scene_lines` and
`current_scene_number`.  The first component of the result is a ghost record
of the discarded lines (blank lines skipped while no body is accumulating
and non-header lines seen while `current_scene is None`), which the source
merely drops.  The new scene's number is `scene_match.get('number',
current_scene_number + 1)`; the key `'number'` is always present in the
dictionary `_is_scene_header` returns, so `dict.get` yields the stored value
(possibly `None`) and the default is dead. -/
def segmentAux : List String → Nat → Option OpenScene → List String → Nat →
    List String × List Scene
  | [], _, cur, curLines, _ =>
    match cur with
    | some o => ([], if curLines.isEmpty then [] else [finalizeScene o curLines])
    | none => ([], [])
  | line :: rest, i, cur, curLines, counter =>
    let ls := pyStrip line
    if ls = "" then
      if curLines.isEmpty then
        let r := segmentAux rest (i + 1) cur curLines counter
        (line :: r.1, r.2)
      else
        segmentAux rest (i + 1) cur (curLines ++ [line]) counter
    else
      match isSceneHeader ls with
      | some m =>
        let fin :=
          match cur with
          | some o => if curLines.isEmpty then [] else [finalizeScene o curLines]
          | none => []
        let o : OpenScene :=
          { scene_number := m.number, header := ls, line_start := i + 1,
            location := m.location, time_of_day := m.time_of_day,
            interior_exterior := m.int_ext }
        let r := segmentAux rest (i + 1) (some o) [line] (counter + 1)
        (r.1, fin ++ r.2)
      | none =>
        match cur with
        | some _ => segmentAux rest (i + 1) cur (curLines ++ [line]) counter
        | none =>
          let r := segmentAux rest (i + 1) cur curLines counter
          (line :: r.1, r.2)

/-- Header text of a fallback scene, `f'Сцена {scene_number}'`. -/
def defaultSceneHeader (n : Nat) : String := "Сцена " ++ toString n

/-- One fallback scene: text is the double-newline join of its paragraphs,
`word_count` the accumulated counter, the location/time/interior fields and
the header line offset are the literal defaults of the source. -/
def mkDefaultScene (n : Nat) (paras : List String) (wc : Nat) : Scene :=
  { scene_number := some n, header := defaultSceneHeader n, line_start := 0,
    location := "", time_of_day := "", interior_exterior := "",
    text := pyJoin "\n\n" paras, word_count := wc, span := [] }

/-- The paragraph loop of `_create_default_scenes`: accumulate paragraphs and
their word counts, flush a scene whenever the counter reaches 500, and emit
the leftover (if any) as a final scene. -/
def defaultAux : List String → List String → Nat → Nat → List Scene
  | [], cur, wc, n => if cur.isEmpty then [] else [mkDefaultScene n cur wc]
  | p :: ps, cur, wc, n =>
    let cur2 := cur ++ [p]
    let wc2 := wc + (pySplitWs p).length
    if 500 ≤ wc2 then mkDefaultScene n cur2 wc2 :: defaultAux ps [] 0 (n + 1)
    else defaultAux ps cur2 wc2 n

/-- Paragraph list of `_create_default_scenes`: split on blank-line breaks,
strip, drop empties. -/
def paragraphsOf (text : String) : List String :=
  ((pySplit "\n\n" text).map pyStrip).filter (fun p => p ≠ "")

/-- SceneSegmenter's `_create_default_scenes`. -/
def createDefaultScenes (text : String) : List Scene :=
  defaultAux (paragraphsOf text) [] 0 1

/-- The full `SceneSegmenter.segment` run, keeping the ghost preamble. -/
def segmentFull (text : String) : List String × List Scene :=
  segmentAux (pySplit "\n" text) 0 none [] 0

/-- SceneSegmenter's `segment`: the line loop, falling back to
`_create_default_scenes` when it produced no scene. -/
def segment (text : String) : List Scene :=
  let scenes := (segmentFull text).2
  if scenes.isEmpty then createDefaultScenes text else scenes

/-!
NLPAnalyzer (`nlp_analyzer.py`).  Three capabilities of the runtime are
external to the embedded core and appear as parameters:
the person-recognition model (Natasha NER) as `ner : String → List String`
returning the texts of the PER spans; the keyword configuration `config.KEYWORDS`
(the module `config` is not among the repository files given) as a `Keywords`
record; and CPython's conversion `list(set(xs))`, whose iteration order is
hash-randomized, as `setEnum : List String → List String`, understood to
enumerate the distinct elements of its argument in an unspecified order.
The keyword lists written literally inside `nlp_analyzer.py` (props, music,
food, location) are embedded literally.
-/

/-- Stopword set of `_normalize_name`. -/
def stopWords : List String := ["КАДР", "СЦЕНА", "КОНЕЦ", "ТИТРЫ", "ФОН", "ГОЛОС"]

/-- NLPAnalyzer's `_normalize_name`: collapse whitespace, reject more than 3
words, reject stopwords by upper-cased form, else title-case. -/
def normalizeName (name : String) : String :=
  let collapsed := pyJoin " " (pySplitWs name)
  if 3 < (pySplitWs collapsed).length then ""
  else if stopWords.contains (pyUpper collapsed) then ""
  else pyTitle collapsed

/-- The dialogue-cue pattern `^([А-ЯЁ][А-ЯЁ\s]+)(?:\s*\(|:)` (no IGNORECASE)
applied by `re.search` to a stripped line: an upper-case Cyrillic letter,
then a non-empty greedy run of upper-case Cyrillic letters and whitespace;
the run cannot contain `(` or `:`, so the character just after the maximal
run must close the group, with `\s*\(` reaching `(` through the run's own
trailing whitespace — either way the captured group up to `.strip()` is the
stripped head-plus-run.  Returns `group(1).strip()`. -/
def dialogueCueName (line : String) : Option String :=
  match line.data with
  | [] => none
  | c :: t =>
    if isCyrUpper c then
      let run := t.takeWhile (fun d => isCyrUpper d || isPyWs d)
      if run.isEmpty then none
      else
        match t.drop run.length with
        | x :: _ => if x = ':' || x = '(' then some ⟨stripL (c :: run)⟩ else none
        | [] => none
    else none

/-- Normalization of the NER span texts: names the normalizer rejects are
not added. -/
def normalizedNonempty (l : List String) : List String :=
  l.filterMap (fun s =>
    let n := normalizeName s
    if n = "" then none else some n)

/-- Names collected by the dialogue-cue scan of `_extract_characters`: each
line is stripped, matched against the cue pattern, guarded to at most 3
words, and normalized. -/
def dialogueNames (text : String) : List String :=
  (pySplit "\n" text).filterMap (fun line =>
    match dialogueCueName (pyStrip line) with
    | some name =>
      if (pySplitWs name).length ≤ 3 then
        let n := normalizeName name
        if n = "" then none else some n
      else none
    | none => none)

/-- Code-point lexicographic order on character lists (Python `str` order). -/
def listLeB : List Char → List Char → Bool
  | [], _ => true
  | _ :: _, [] => false
  | a :: as, b :: bs => if a < b then true else if b < a then false else listLeB as bs

/-- Python string order. -/
def strLeB (a b : String) : Bool := listLeB a.data b.data

/-- Insertion into a sorted list. -/
def insertStr (x : String) : List String → List String
  | [] => [x]
  | y :: ys => if strLeB x y then x :: y :: ys else y :: insertStr x ys

/-- Insertion sort by Python string order; applied to deduplicated lists it
is the canonical value of `sorted(list(set(...)))`, which does not depend on
the set's iteration order. -/
def sortStrings : List String → List String
  | [] => []
  | x :: xs => insertStr x (sortStrings xs)

/-- NLPAnalyzer's `_extract_characters`, with the person-recognition model a
parameter: the union of the normalized NER names and the dialogue-cue names,
deduplicated (the source accumulates into a `set`) and sorted. -/
def extractCharacters (ner : String → List String) (text : String) : List String :=
  sortStrings (normalizedNonempty (ner text) ++ dialogueNames text).dedup

/-- Keyword configuration `config.KEYWORDS` (the `config` module is not part
of the given repository files); one list per category consumed by the
analyzer, all-lowercase terms per the specification. -/
structure Keywords where
  crowd : List String
  vehicles : List String
  animals : List String
  sfx : List String
  makeup : List String
  stunts : List String
  weapons : List String
  time_day : List String
  time_night : List String
  time_morning : List String
  time_evening : List String
  interior : List String
  exterior : List String

/-- Keywords hit in the lowered text, capitalized, in keyword-list order:
the common body of the category extractors. -/
def catHits (kws : List String) (textLower : String) : List String :=
  (kws.filter (fun k => isSubL k.data textLower.data)).map (fun k => pyCapitalize k)

/-- A category computed as `sorted(list(set(...)))` of capitalized hits. -/
def extractSortedCat (kws : List String) (text : String) : List String :=
  sortStrings (catHits kws (pyLower text)).dedup

/-- A category computed as `list(set(...))` of capitalized hits: the set's
enumeration is the `setEnum` parameter. -/
def extractUnsortedCat (setEnum : List String → List String) (kws : List String)
    (text : String) : List String :=
  setEnum (catHits kws (pyLower text))

/-- Hardcoded prop keyword list of `_extract_props`. -/
def propKeywords : List String :=
  ["стол", "стул", "кресло", "диван", "шкаф", "зеркало",
   "телефон", "компьютер", "ноутбук", "телевизор",
   "книга", "газета", "журнал", "документ", "письмо",
   "сумка", "чемодан", "рюкзак", "портфель",
   "ключи", "кошелек", "часы", "очки",
   "фотография", "картина", "портрет",
   "бутылка", "стакан", "чашка", "тарелка",
   "цветы", "букет", "растение",
   "лампа", "свеча", "фонарь",
   "мяч", "игрушка"]

/-- Hardcoded music keyword list of `_extract_music`. -/
def musicKeywords : List String :=
  ["музыка", "песня", "мелодия", "звучит", "играет",
   "гитара", "пианино", "скрипка", "барабан", "инструмент"]

/-- Hardcoded food keyword list of `_extract_food`. -/
def foodKeywords : List String :=
  ["кофе", "чай", "вино", "пиво", "вода", "сок",
   "хлеб", "суп", "салат", "мясо", "рыба",
   "торт", "пирог", "конфета", "шоколад",
   "завтрак", "обед", "ужин", "еда", "блюдо"]

/-- Hardcoded location keyword list of `_extract_location`. -/
def locationKeywords : List String :=
  ["кухня", "гостиная", "спальня", "кабинет", "офис",
   "улица", "парк", "площадь", "кафе", "ресторан",
   "магазин", "больница", "школа", "квартира", "дом"]

/-- NLPAnalyzer's `_extract_props`. -/
def extractProps (text : String) : List String := extractSortedCat propKeywords text

/-- NLPAnalyzer's `_extract_transport`. -/
def extractTransport (kw : Keywords) (text : String) : List String :=
  extractSortedCat kw.vehicles text

/-- NLPAnalyzer's `_extract_animals`. -/
def extractAnimals (kw : Keywords) (text : String) : List String :=
  extractSortedCat kw.animals text

/-- NLPAnalyzer's `_extract_sfx`. -/
def extractSfx (kw : Keywords) (text : String) : List String :=
  extractSortedCat kw.sfx text

/-- NLPAnalyzer's `_extract_makeup`. -/
def extractMakeup (kw : Keywords) (text : String) : List String :=
  extractSortedCat kw.makeup text

/-- NLPAnalyzer's `_extract_stunts`. -/
def extractStunts (kw : Keywords) (text : String) : List String :=
  extractSortedCat kw.stunts text

/-- NLPAnalyzer's `_extract_weapons`. -/
def extractWeapons (kw : Keywords) (text : String) : List String :=
  extractSortedCat kw.weapons text

/-- NLPAnalyzer's `_extract_music`: hits in keyword-list order, then
`list(set(music))`. -/
def extractMusic (setEnum : List String → List String) (text : String) : List String :=
  extractUnsortedCat setEnum musicKeywords text

/-- NLPAnalyzer's `_extract_food`: hits in keyword-list order, then
`list(set(food))`. -/
def extractFood (setEnum : List String → List String) (text : String) : List String :=
  extractUnsortedCat setEnum foodKeywords text

/-- Sentence terminator class `[.!?]`. -/
def isTermCh (c : Char) : Bool := c = '.' || c = '!' || c = '?'

/-- Closed sentence chunks of a text: the characters strictly between
consecutive terminators, paired with the closing terminator (the accumulator
holds the current chunk reversed; a trailing unterminated chunk yields no
pair). -/
def closedSegs : List Char → List Char → List (List Char × Char)
  | [], _ => []
  | c :: t, acc =>
    if isTermCh c then (acc.reverse, c) :: closedSegs t []
    else closedSegs t (c :: acc)

/-- NLPAnalyzer's `_extract_extras`: for each crowd keyword present in the
lowered text, `re.findall(r'([^.!?]*' + kw + r'[^.!?]*[.!?])')` collects, for
every terminator-closed chunk containing the keyword, the full chunk plus
its terminator (the greedy classes cannot cross terminators, so each
non-overlapping leftmost match extends from just after the previous
terminator through the closing one); matches are stripped and passed through
`list(set(...))`.  Faithful for keywords without terminator characters,
which the all-lowercase keyword configuration satisfies. -/
def extractExtras (kw : Keywords) (setEnum : List String → List String)
    (text : String) : List String :=
  let low := (pyLower text).data
  let segs := closedSegs low []
  setEnum (kw.crowd.flatMap (fun k =>
    if isSubL k.data low then
      segs.filterMap (fun sc =>
        if isSubL k.data sc.1 then some (⟨stripL (sc.1 ++ [sc.2])⟩ : String) else none)
    else []))

/-- NLPAnalyzer's `_extract_location`: scan the first five lines, in line
order then keyword order, and return the first hit capitalized. -/
def extractLocationNLP (text : String) : String :=
  let lines := (pySplit "\n" text).take 5
  match lines.findSome? (fun line =>
    let low := pyLower line
    locationKeywords.findSome? (fun k =>
      if isSubL k.data low.data then some (pyCapitalize k) else none)) with
  | some l => l
  | none => ""

/-- NLPAnalyzer's `_extract_time_of_day`: the four configured lists in
order, first list with a hit wins. -/
def extractTimeOfDayNLP (kw : Keywords) (text : String) : String :=
  let low := pyLower text
  match ([(kw.time_day, "День"), (kw.time_night, "Ночь"),
          (kw.time_morning, "Утро"), (kw.time_evening, "Вечер")]).findSome?
      (fun lv => if lv.1.any (fun k => isSubL k.data low.data) then some lv.2 else none) with
  | some v => v
  | none => ""

/-- NLPAnalyzer's `_extract_interior_exterior`: keyword-family hit counts
compared, ties unset. -/
def extractIntExtNLP (kw : Keywords) (text : String) : String :=
  let low := pyLower text
  let ic := (kw.interior.filter (fun k => isSubL k.data low.data)).length
  let ec := (kw.exterior.filter (fun k => isSubL k.data low.data)).length
  if ec < ic then "Интерьер"
  else if ic < ec then "Экстерьер"
  else ""

/-- Worker for `splitTermRuns`: `re.split(r'[.!?]+', text)` splits at maximal
terminator runs, keeping empty pieces at the ends.  `some acc` accumulates
the current piece (reversed); `none` means a terminator run is being
consumed, so further terminators extend the same split point. -/
def splitTermAux : List Char → Option (List Char) → List (List Char)
  | [], some acc => [acc.reverse]
  | [], none => [[]]
  | c :: t, some acc =>
    if isTermCh c then acc.reverse :: splitTermAux t none
    else splitTermAux t (some (c :: acc))
  | c :: t, none =>
    if isTermCh c then splitTermAux t none else splitTermAux t (some [c])

/-- The sentence list `re.split(r'[.!?]+', text)`. -/
def splitTermRuns (s : List Char) : List (List Char) := splitTermAux s (some [])

/-- One step of the sentence-collection loop of `_create_description`: the
state is the kept (stripped) sentences and the running character count; a
sentence is kept when non-empty after stripping and the count before it is
still below 200. -/
def descStep (st : List String × Nat) (s : String) : List String × Nat :=
  let s2 := pyStrip s
  if s2 ≠ "" && st.2 < 200 then (st.1 ++ [s2], st.2 + s2.length) else st

/-- NLPAnalyzer's `_create_description`: loop over the first three
sentences, join with `". "`, and hard-truncate to 197 characters plus an
ellipsis when the joined result exceeds 200. -/
def createDescription (text : String) : String :=
  let sentences := (splitTermRuns text.data).map (fun l => (⟨l⟩ : String))
  let st := (sentences.take 3).foldl descStep ([], 0)
  let description := pyJoin ". " st.1
  if 200 < description.length then ⟨description.data.take 197 ++ "...".data⟩
  else description

/-- The enriched scene dictionary produced by `analyze_scene`. -/
structure Analyzed where
  scene_number : Option Nat
  header : String
  line_start : Nat
  location : String
  time_of_day : String
  interior_exterior : String
  text : String
  word_count : Nat
  characters : List String
  main_characters : List String
  secondary_characters : List String
  extras : List String
  props : List String
  transport : List String
  animals : List String
  sfx : List String
  makeup : List String
  stunts : List String
  music : List String
  weapons : List String
  food : List String
  description : String
deriving Repr, DecidableEq

/-- NLPAnalyzer's `analyze_scene`: copy the scene record, add every
extraction result, and recompute location, time of day and
interior/exterior only when the copied value is still unset (falsy). -/
def analyzeScene (kw : Keywords) (ner : String → List String)
    (setEnum : List String → List String) (s : Scene) : Analyzed :=
  let text := s.text
  let chars := extractCharacters ner text
  { scene_number := s.scene_number, header := s.header,
    line_start := s.line_start, text := s.text, word_count := s.word_count,
    characters := chars,
    main_characters := chars.take 5,
    secondary_characters := chars.drop 5,
    extras := extractExtras kw setEnum text,
    props := extractProps text,
    transport := extractTransport kw text,
    animals := extractAnimals kw text,
    sfx := extractSfx kw text,
    makeup := extractMakeup kw text,
    stunts := extractStunts kw text,
    music := extractMusic setEnum text,
    weapons := extractWeapons kw text,
    food := extractFood setEnum text,
    location := if s.location = "" then extractLocationNLP text else s.location,
    time_of_day := if s.time_of_day = "" then extractTimeOfDayNLP kw text
      else s.time_of_day,
    interior_exterior := if s.interior_exterior = "" then extractIntExtNLP kw text
      else s.interior_exterior,
    description := createDescription text }

/-!
Derived quantities the claims speak about.
-/

/-- Total whitespace-token word count of a text (the `W` of the fallback
chunking claim). -/
def totalWords (text : String) : Nat := (pySplitWs text).length

/-- Sum of the word counts of a list of strings. -/
def sumWords (ps : List String) : Nat :=
  (ps.map (fun p => (pySplitWs p).length)).sum

/-- The NameNormalizer contract, stated from the specification's words
(§4.3): collapse internal whitespace; reject (return empty) if the token
count exceeds 3; reject if the upper-cased form is in the closed stopword
set; otherwise title-case and return.  Compared against the source's
`normalizeName` for the refinement claim. -/
def nameNormalizerContract (name : String) : String :=
  let ws := pySplitWs name
  if 3 < ws.length then ""
  else if stopWords.contains (pyUpper (pyJoin " " ws)) then ""
  else pyTitle (pyJoin " " ws)

/-- The input lines recovered from the detector's output as the coverage
claim reads them: the discarded leading preamble followed by the lines of
each emitted scene's `rawText`, in detection order. -/
def linesCovered (text : String) : List String :=
  (segmentFull text).1 ++
    ((segmentFull text).2.map Scene.text).flatMap (fun t => pySplit "\n" t)

/-- The input lines recovered from the detector's output at the granularity
of the accumulated line spans: the discarded leading preamble followed by
each emitted scene's span. -/
def spansCovered (text : String) : List String :=
  (segmentFull text).1 ++ ((segmentFull text).2.map Scene.span).flatten

/-- Ceiling division specialised to the claims' `ceil(W/500)`. -/
def ceil500 (w : Nat) : Nat := (w + 499) / 500

/-- Combined length of a scene text's first three sentences (as the claim
counts them: stripped, separators excluded). -/
def firstThreeSentencesLen (text : String) : Nat :=
  ((((splitTermRuns text.data).map (fun l => (⟨l⟩ : String))).take 3).map
    (fun s => (pyStrip s).length)).sum

/-- The sentences kept by `_create_description`'s collection loop: the
stripped, nonempty sentences among the first three that start below the
200-character budget. -/
def keptSentences (text : String) : List String :=
  ((((splitTermRuns text.data).map (fun l => (⟨l⟩ : String))).take 3).foldl
    descStep ([], 0)).1

/-- The joined kept sentences `'. '.join(description_parts)` of
`_create_description`, before any truncation. -/
def joinedKept (text : String) : String := pyJoin ". " (keptSentences text)

/-!
Lemmas about the Python string primitives.
-/

/-- Splitting an all-whitespace list yields no token. -/
theorem tokensAux_all_ws_nil {w : List Char} (hw : ∀ c ∈ w, isPyWs c) :
    tokensAux w [] = [] := by
  induction w with
  | nil => rfl
  | cons c t ih =>
    have hc : isPyWs c := hw c (by simp)
    simp only [tokensAux, hc, if_pos, List.isEmpty_nil, if_true]
    exact ih (fun d hd => hw d (by simp [hd]))

/-- An all-whitespace list flushes the pending token and contributes none. -/
theorem tokensAux_all_ws {w : List Char} (hw : ∀ c ∈ w, isPyWs c) (acc : List Char) :
    tokensAux w acc = tokensAux [] acc := by
  cases w with
  | nil => rfl
  | cons c t =>
    have hc : isPyWs c := hw c (by simp)
    have ht : tokensAux t [] = [] :=
      tokensAux_all_ws_nil (fun d hd => hw d (by simp [hd]))
    cases hacc : acc.isEmpty <;> simp [tokensAux, hc, hacc, ht]

/-- A non-empty all-whitespace prefix flushes the pending token and lets the
scan restart on the remainder. -/
theorem tokensAux_ws_append {w : List Char} (hne : w ≠ []) (hw : ∀ c ∈ w, isPyWs c)
    (r acc : List Char) :
    tokensAux (w ++ r) acc = tokensAux [] acc ++ tokensAux r [] := by
  induction w generalizing acc with
  | nil => exact absurd rfl hne
  | cons c t ih =>
    have hc : isPyWs c := hw c (by simp)
    by_cases hT : t = []
    · subst hT
      cases hacc : acc.isEmpty <;> simp [tokensAux, hc, hacc]
    · have := ih hT (fun d hd => hw d (by simp [hd])) ([])
      cases hacc : acc.isEmpty <;>
        simp_all [tokensAux, hc]

/-- Tokenization distributes over a whitespace splice point. -/
theorem tokensAux_append_ws {c : Char} (hc : isPyWs c) (xs ys : List Char) :
    ∀ acc, tokensAux (xs ++ c :: ys) acc = tokensAux xs acc ++ tokensAux ys [] := by
  induction xs with
  | nil =>
    intro acc
    cases hacc : acc.isEmpty <;> simp [tokensAux, hc, hacc]
  | cons x t ih =>
    intro acc
    by_cases hx : isPyWs x
    · cases hacc : acc.isEmpty <;> simp [tokensAux, hx, hacc, ih]
    · simp [tokensAux, hx, ih]

/-- A non-empty whitespace-free list is one whole token. -/
theorem tokensAux_no_ws {t : List Char} (hne : t ≠ []) (ht : ∀ c ∈ t, ¬ isPyWs c)
    (acc : List Char) :
    tokensAux t acc = [acc.reverse ++ t] := by
  induction t generalizing acc with
  | nil => exact absurd rfl hne
  | cons c r ih =>
    have hc : ¬ isPyWs c := ht c (by simp)
    by_cases hr : r = []
    · subst hr
      simp [tokensAux, hc]
    · have := ih hr (fun d hd => ht d (by simp [hd])) (c :: acc)
      simp only [tokensAux, hc, if_neg, Bool.false_eq_true, this]
      simp

/-- Every token is non-empty and free of whitespace. -/
theorem tokensAux_mem {s : List Char} :
    ∀ {acc : List Char}, (∀ c ∈ acc, ¬ isPyWs c) →
      ∀ t ∈ tokensAux s acc, t ≠ [] ∧ ∀ c ∈ t, ¬ isPyWs c := by
  induction s with
  | nil =>
    intro acc hacc t ht
    cases acc with
    | nil => simp [tokensAux] at ht
    | cons a as =>
      rw [show tokensAux [] (a :: as) = [(a :: as).reverse] from by
        simp [tokensAux]] at ht
      rw [List.mem_singleton] at ht
      subst ht
      refine ⟨by simp, ?_⟩
      intro d hd
      exact hacc d (List.mem_reverse.mp hd)
  | cons c r ih =>
    intro acc hacc t ht
    by_cases hc : isPyWs c
    · cases acc with
      | nil =>
        rw [show tokensAux (c :: r) [] = tokensAux r [] from by
          simp [tokensAux, hc]] at ht
        exact ih (by simp) t ht
      | cons a as =>
        rw [show tokensAux (c :: r) (a :: as)
            = (a :: as).reverse :: tokensAux r [] from by
          simp [tokensAux, hc]] at ht
        rcases List.mem_cons.mp ht with h1 | h1
        · subst h1
          refine ⟨by simp, ?_⟩
          intro d hd
          exact hacc d (List.mem_reverse.mp hd)
        · exact ih (by simp) t h1
    · rw [show tokensAux (c :: r) acc = tokensAux r (c :: acc) from by
        simp [tokensAux, hc]] at ht
      refine ih ?_ t ht
      intro d hd
      rcases List.mem_cons.mp hd with h1 | h1
      · rw [h1]
        exact hc
      · exact hacc d h1

/-- With a pending token the scan always emits something. -/
theorem tokensAux_ne_nil {s acc : List Char} (h : acc ≠ []) :
    tokensAux s acc ≠ [] := by
  induction s generalizing acc with
  | nil =>
    cases acc with
    | nil => exact absurd rfl h
    | cons a as => simp [tokensAux]
  | cons c r ih =>
    cases acc with
    | nil => exact absurd rfl h
    | cons a as =>
      by_cases hc : isPyWs c
      · rw [show tokensAux (c :: r) (a :: as)
            = (a :: as).reverse :: tokensAux r [] from by simp [tokensAux, hc]]
        simp
      · rw [show tokensAux (c :: r) (a :: as) = tokensAux r (c :: a :: as) from by
          simp [tokensAux, hc]]
        exact ih (by simp)

/-- There are no tokens exactly when everything is whitespace. -/
theorem tokensL_eq_nil_iff {s : List Char} :
    tokensL s = [] ↔ ∀ c ∈ s, isPyWs c := by
  induction s with
  | nil => simp [tokensL, tokensAux]
  | cons c t ih =>
    by_cases hc : isPyWs c
    · rw [show tokensL (c :: t) = tokensL t from by simp [tokensL, tokensAux, hc]]
      simp [ih, hc]
    · constructor
      · intro h
        rw [show tokensL (c :: t) = tokensAux t [c] from by
          simp [tokensL, tokensAux, hc]] at h
        exact absurd h (tokensAux_ne_nil (by simp))
      · intro h
        exact absurd (h c (by simp)) hc

/-- A trailing all-whitespace suffix does not change the tokens. -/
theorem tokensAux_append_all_ws {w : List Char} (hw : ∀ c ∈ w, isPyWs c) :
    ∀ (y acc : List Char), tokensAux (y ++ w) acc = tokensAux y acc := by
  intro y
  induction y with
  | nil =>
    intro acc
    simpa using tokensAux_all_ws hw acc
  | cons c r ih =>
    intro acc
    by_cases hc : isPyWs c <;> cases acc <;>
      simp [tokensAux, hc, ih]

/-- Stripping does not change the tokens. -/
theorem tokensL_stripL (s : List Char) : tokensL (stripL s) = tokensL s := by
  have hdecomp : ∀ l : List Char,
      l = (l.reverse.dropWhile isPyWs).reverse ++ (l.reverse.takeWhile isPyWs).reverse := by
    intro l
    conv_lhs => rw [← List.reverse_reverse l,
      ← List.takeWhile_append_dropWhile isPyWs l.reverse]
    rw [List.reverse_append]
  have hdrop : tokensL (s.dropWhile isPyWs) = tokensL s := by
    conv_rhs => rw [← List.takeWhile_append_dropWhile isPyWs s]
    cases htw : s.takeWhile isPyWs with
    | nil => simp
    | cons a as =>
      have hws : ∀ c ∈ s.takeWhile isPyWs, isPyWs c :=
        fun c hc => List.mem_takeWhile_imp hc
      rw [htw] at hws
      rw [show tokensL ((a :: as) ++ s.dropWhile isPyWs)
          = tokensAux ((a :: as) ++ s.dropWhile isPyWs) [] from rfl,
        tokensAux_ws_append (by simp) hws]
      rfl
  have hws2 : ∀ c ∈ ((s.dropWhile isPyWs).reverse.takeWhile isPyWs).reverse, isPyWs c := by
    intro c hc
    exact List.mem_takeWhile_imp (List.mem_reverse.mp hc)
  calc tokensL (stripL s)
      = tokensL (stripL s ++ ((s.dropWhile isPyWs).reverse.takeWhile isPyWs).reverse) := by
        rw [show tokensL (stripL s ++ _) = tokensAux (stripL s ++ _) [] from rfl,
          tokensAux_append_all_ws hws2]
        rfl
    _ = tokensL (s.dropWhile isPyWs) := by
        rw [stripL, ← hdecomp]
    _ = tokensL s := hdrop

/-- Stripping yields the empty list exactly on all-whitespace input. -/
theorem stripL_eq_nil_iff {s : List Char} :
    stripL s = [] ↔ ∀ c ∈ s, isPyWs c := by
  constructor
  · intro h
    have h2 : tokensL (stripL s) = [] := by rw [h]; rfl
    rw [tokensL_stripL] at h2
    exact tokensL_eq_nil_iff.mp h2
  · intro h
    have : s.dropWhile isPyWs = [] := List.dropWhile_eq_nil_iff.mpr h
    simp [stripL, this]

/-- Tokenizing the single-space join of non-empty whitespace-free tokens
recovers them. -/
theorem tokensL_join_tokens {ts : List (List Char)}
    (h : ∀ t ∈ ts, t ≠ [] ∧ ∀ c ∈ t, ¬ isPyWs c) :
    tokensL (joinSepL [' '] ts) = ts := by
  induction ts with
  | nil => rfl
  | cons t rest ih =>
    cases rest with
    | nil =>
      obtain ⟨hne, hws⟩ := h t (by simp)
      simpa [joinSepL, tokensL] using tokensAux_no_ws hne hws []
    | cons u rest2 =>
      obtain ⟨hne, hws⟩ := h t (by simp)
      have hsp : isPyWs ' ' := by decide
      have hrec := ih (fun v hv => h v (by simp [hv]))
      simp only [joinSepL, tokensL] at hrec ⊢
      have : t ++ [' '] ++ joinSepL [' '] (u :: rest2)
          = t ++ ' ' :: joinSepL [' '] (u :: rest2) := by simp
      rw [this, tokensAux_append_ws hsp, hrec, tokensAux_no_ws hne hws]
      simp

/-- Unfolding equation of `splitSepFuel` at positive fuel on a matched
separator prefix. -/
theorem splitSepFuel_succ_pos {sep s : List Char} {f : Nat}
    (h : sep ≠ [] ∧ sep.isPrefixOf s) :
    splitSepFuel sep (f + 1) s = [] :: splitSepFuel sep f (s.drop sep.length) := by
  rw [splitSepFuel.eq_def]
  dsimp only
  rw [if_pos h]

/-- Unfolding equation of `splitSepFuel` at positive fuel on the empty
list. -/
theorem splitSepFuel_succ_nil {sep : List Char} {f : Nat} :
    splitSepFuel sep (f + 1) [] = [[]] := by
  rw [splitSepFuel.eq_def]
  dsimp only
  have : ¬ (sep ≠ [] ∧ sep.isPrefixOf ([] : List Char)) := by
    rintro ⟨h1, h2⟩
    cases sep with
    | nil => exact h1 rfl
    | cons a as => simp [List.isPrefixOf] at h2
  rw [if_neg this]

/-- Unfolding equation of `splitSepFuel` at positive fuel when no separator
matches at the head. -/
theorem splitSepFuel_succ_cons {sep : List Char} {f : Nat} {c : Char} {t : List Char}
    (h : ¬ (sep ≠ [] ∧ sep.isPrefixOf (c :: t))) :
    splitSepFuel sep (f + 1) (c :: t) =
      match splitSepFuel sep f t with
      | [] => [[c]]
      | p :: rest => (c :: p) :: rest := by
  rw [splitSepFuel.eq_def]
  dsimp only
  rw [if_neg h]

/-- Splitting never yields the empty list of pieces, and when the separator
is all-whitespace the tokens of a list are the tokens of its pieces in
order, with the pending token flowing into the first piece. -/
theorem splitSepFuel_tokens {sep : List Char} (hsep : sep ≠ [])
    (hws : ∀ c ∈ sep, isPyWs c) :
    ∀ (f : Nat) (s acc : List Char), s.length ≤ f →
      ∃ p rest, splitSepFuel sep f s = p :: rest ∧
        tokensAux s acc = tokensAux p acc ++ (rest.map tokensL).flatten := by
  intro f
  induction f with
  | zero =>
    intro s acc hlen
    have hs : s = [] := List.length_eq_zero.mp (Nat.le_zero.mp hlen)
    subst hs
    exact ⟨[], [], rfl, by simp⟩
  | succ f ih =>
    intro s acc hlen
    by_cases hpre : sep ≠ [] ∧ sep.isPrefixOf s
    · rw [splitSepFuel_succ_pos hpre]
      have hp : sep <+: s := List.isPrefixOf_iff_prefix.mp hpre.2
      obtain ⟨r, hr⟩ := hp
      subst hr
      rw [List.drop_left]
      have hlenr : r.length ≤ f := by
        have hpos : 0 < sep.length := List.length_pos.mpr hsep
        simp only [List.length_append] at hlen
        omega
      obtain ⟨p2, rest2, hsplit2, htok2⟩ := ih r [] hlenr
      refine ⟨[], splitSepFuel sep f r, rfl, ?_⟩
      rw [tokensAux_ws_append hsep hws r acc, hsplit2, htok2]
      simp [tokensL]
    · cases s with
      | nil =>
        rw [splitSepFuel_succ_nil]
        exact ⟨[], [], rfl, by simp⟩
      | cons c t =>
        rw [splitSepFuel_succ_cons hpre]
        by_cases hc : isPyWs c
        · obtain ⟨p2, rest2, hsplit2, htok2⟩ := ih t [] (by
            simp only [List.length_cons] at hlen
            omega)
          rw [hsplit2]
          refine ⟨c :: p2, rest2, rfl, ?_⟩
          rw [show tokensAux (c :: t) acc
              = (if acc.isEmpty then tokensAux t [] else acc.reverse :: tokensAux t []) from by
            simp [tokensAux, hc],
            show tokensAux (c :: p2) acc
              = (if acc.isEmpty then tokensAux p2 [] else acc.reverse :: tokensAux p2 []) from by
            simp [tokensAux, hc]]
          rw [htok2]
          cases acc.isEmpty <;> simp
        · obtain ⟨p3, rest3, hsplit3, htok3⟩ := ih t (c :: acc) (by
            simp only [List.length_cons] at hlen
            omega)
          rw [hsplit3]
          refine ⟨c :: p3, rest3, rfl, ?_⟩
          rw [show tokensAux (c :: t) acc = tokensAux t (c :: acc) from by
            simp [tokensAux, hc],
            show tokensAux (c :: p3) acc = tokensAux p3 (c :: acc) from by
            simp [tokensAux, hc]]
          exact htok3

/-- Every character of every piece of a split comes from the input. -/
theorem splitSepFuel_subset {sep : List Char} :
    ∀ (f : Nat) (s : List Char), ∀ p ∈ splitSepFuel sep f s, ∀ c ∈ p, c ∈ s := by
  intro f
  induction f with
  | zero =>
    intro s p hp c hc
    simp only [splitSepFuel, List.mem_singleton] at hp
    subst hp
    simp at hc
  | succ f ih =>
    intro s p hp c hc
    by_cases hpre : sep ≠ [] ∧ sep.isPrefixOf s
    · rw [splitSepFuel_succ_pos hpre] at hp
      rcases List.mem_cons.mp hp with h1 | h1
      · subst h1
        simp at hc
      · exact List.drop_subset _ s (ih _ p h1 c hc)
    · cases s with
      | nil =>
        rw [splitSepFuel_succ_nil] at hp
        simp only [List.mem_singleton] at hp
        subst hp
        simp at hc
      | cons a t =>
        rw [splitSepFuel_succ_cons hpre] at hp
        cases hsp : splitSepFuel sep f t with
        | nil =>
          rw [hsp] at hp
          simp only [List.mem_singleton] at hp
          subst hp
          exact List.mem_cons.mpr (Or.inl (by simpa using hc))
        | cons p2 rest2 =>
          rw [hsp] at hp
          rcases List.mem_cons.mp hp with h1 | h1
          · subst h1
            rcases List.mem_cons.mp hc with h2 | h2
            · simp [h2]
            · have := ih t p2 (by rw [hsp]; simp) c h2
              simp [this]
          · have := ih t p (by rw [hsp]; exact List.mem_cons_of_mem _ h1) c hc
            simp [this]

/-- When the separator's first character never occurs, nothing splits. -/
theorem splitSepFuel_single {a : Char} {sep : List Char} (hsep : sep = a :: sep.tail) :
    ∀ (f : Nat) (s : List Char), s.length ≤ f → a ∉ s →
      splitSepFuel sep f s = [s] := by
  intro f
  induction f with
  | zero =>
    intro s hlen _
    have hs : s = [] := List.length_eq_zero.mp (Nat.le_zero.mp hlen)
    subst hs
    rfl
  | succ f ih =>
    intro s hlen ha
    have hpre : ¬ (sep ≠ [] ∧ sep.isPrefixOf s) := by
      rintro ⟨-, hp⟩
      have hp2 : sep <+: s := List.isPrefixOf_iff_prefix.mp hp
      obtain ⟨r, hr⟩ := hp2
      apply ha
      rw [← hr, hsep]
      simp
    cases s with
    | nil => exact splitSepFuel_succ_nil
    | cons c t =>
      rw [splitSepFuel_succ_cons hpre,
        ih t (by simp only [List.length_cons] at hlen; omega)
          (fun h => ha (by simp [h]))]

/-- Membership is preserved by sorted insertion. -/
theorem mem_insertStr {y x : String} : ∀ {l : List String},
    y ∈ insertStr x l ↔ y = x ∨ y ∈ l := by
  intro l
  induction l with
  | nil => simp [insertStr]
  | cons a as ih =>
    by_cases h : strLeB x a
    · simp [insertStr, h]
    · rw [show insertStr x (a :: as) = a :: insertStr x as from by
        simp [insertStr, h]]
      simp only [List.mem_cons, ih]
      tauto

/-- Membership is preserved by the insertion sort. -/
theorem mem_sortStrings {y : String} : ∀ {l : List String},
    y ∈ sortStrings l ↔ y ∈ l := by
  intro l
  induction l with
  | nil => simp [sortStrings]
  | cons a as ih => simp [sortStrings, mem_insertStr, ih]

/-- The join is at least as long as the sum of the pieces. -/
theorem joinSepL_length_ge (sep : List Char) : ∀ (ps : List (List Char)),
    (ps.map List.length).sum ≤ (joinSepL sep ps).length := by
  intro ps
  induction ps with
  | nil => simp [joinSepL]
  | cons p qs ih =>
    cases qs with
    | nil => simp [joinSepL]
    | cons q rs =>
      simp only [joinSepL, List.map_cons, List.sum_cons, List.length_append]
      have := ih
      simp only [List.map_cons, List.sum_cons] at this
      omega

/-- Finalization stores the accumulated lines as the span. -/
theorem finalizeScene_span (o : OpenScene) (ls : List String) :
    (finalizeScene o ls).span = ls := rfl

/-- Finalization computes the text as the stripped newline join of the
span. -/
theorem finalizeScene_text (o : OpenScene) (ls : List String) :
    (finalizeScene o ls).text = pyStrip (pyJoin "\n" ls) := rfl

/-- Unfolding: end of input with an open scene. -/
theorem segmentAux_nil_some (i : Nat) (o : OpenScene) (curLines : List String)
    (counter : Nat) :
    segmentAux [] i (some o) curLines counter
      = ([], if curLines.isEmpty then [] else [finalizeScene o curLines]) := rfl

/-- Unfolding: end of input with no open scene. -/
theorem segmentAux_nil_none (i : Nat) (curLines : List String) (counter : Nat) :
    segmentAux [] i none curLines counter = ([], []) := rfl

/-- Unfolding: a blank line with no accumulated body is dropped. -/
theorem segmentAux_blank_nil {line : String} (hb : pyStrip line = "")
    (rest : List String) (i : Nat) (cur : Option OpenScene) (counter : Nat) :
    segmentAux (line :: rest) i cur [] counter
      = (line :: (segmentAux rest (i + 1) cur [] counter).1,
         (segmentAux rest (i + 1) cur [] counter).2) := by
  simp [segmentAux, hb]

/-- Unfolding: a blank line joins a non-empty accumulated body. -/
theorem segmentAux_blank_cons {line : String} (hb : pyStrip line = "")
    (rest : List String) (i : Nat) (cur : Option OpenScene) (l0 : String)
    (ls0 : List String) (counter : Nat) :
    segmentAux (line :: rest) i cur (l0 :: ls0) counter
      = segmentAux rest (i + 1) cur ((l0 :: ls0) ++ [line]) counter := by
  simp [segmentAux, hb]

/-- Unfolding: a header line finalizes the open scene (if its body is
non-empty) and opens a new one. -/
theorem segmentAux_header {line : String} {m : HeaderMatch}
    (hb : ¬ pyStrip line = "") (hm : isSceneHeader (pyStrip line) = some m)
    (rest : List String) (i : Nat) (cur : Option OpenScene)
    (curLines : List String) (counter : Nat) :
    segmentAux (line :: rest) i cur curLines counter
      = ((segmentAux rest (i + 1)
            (some { scene_number := m.number, header := pyStrip line,
                    line_start := i + 1, location := m.location,
                    time_of_day := m.time_of_day,
                    interior_exterior := m.int_ext }) [line] (counter + 1)).1,
         (match cur with
          | some o => if curLines.isEmpty then [] else [finalizeScene o curLines]
          | none => []) ++
         (segmentAux rest (i + 1)
            (some { scene_number := m.number, header := pyStrip line,
                    line_start := i + 1, location := m.location,
                    time_of_day := m.time_of_day,
                    interior_exterior := m.int_ext }) [line] (counter + 1)).2) := by
  simp [segmentAux, hb, hm]

/-- Unfolding: a body line joins the open scene. -/
theorem segmentAux_body_some {line : String}
    (hb : ¬ pyStrip line = "") (hm : isSceneHeader (pyStrip line) = none)
    (rest : List String) (i : Nat) (o : OpenScene) (curLines : List String)
    (counter : Nat) :
    segmentAux (line :: rest) i (some o) curLines counter
      = segmentAux rest (i + 1) (some o) (curLines ++ [line]) counter := by
  simp [segmentAux, hb, hm]

/-- Unfolding: a non-header line before the first header is discarded. -/
theorem segmentAux_body_none {line : String}
    (hb : ¬ pyStrip line = "") (hm : isSceneHeader (pyStrip line) = none)
    (rest : List String) (i : Nat) (curLines : List String) (counter : Nat) :
    segmentAux (line :: rest) i none curLines counter
      = (line :: (segmentAux rest (i + 1) none curLines counter).1,
         (segmentAux rest (i + 1) none curLines counter).2) := by
  simp [segmentAux, hb, hm]

/-- The partition invariant of the line loop: from any reachable state (the
body list is empty exactly when no scene is open), the discarded lines
followed by the emitted spans reproduce the pending body plus the remaining
input, and nothing is discarded while a scene is open. -/
theorem segmentAux_partition :
    ∀ (lines : List String) (i : Nat) (cur : Option OpenScene)
      (curLines : List String) (counter : Nat),
      (curLines = [] ↔ cur = none) →
      (segmentAux lines i cur curLines counter).1 ++
          ((segmentAux lines i cur curLines counter).2.map Scene.span).flatten
        = curLines ++ lines
      ∧ (cur ≠ none → (segmentAux lines i cur curLines counter).1 = []) := by
  intro lines
  induction lines with
  | nil =>
    intro i cur curLines counter hinv
    cases cur with
    | none =>
      have h0 : curLines = [] := hinv.mpr rfl
      subst h0
      simp [segmentAux_nil_none]
    | some o =>
      have h0 : curLines ≠ [] := by
        intro h
        exact Option.noConfusion (hinv.mp h)
      rw [segmentAux_nil_some]
      rw [if_neg (by simpa using h0)]
      simp [finalizeScene_span]
  | cons line rest ih =>
    intro i cur curLines counter hinv
    by_cases hb : pyStrip line = ""
    · cases curLines with
      | nil =>
        have hcur : cur = none := hinv.mp rfl
        subst hcur
        rw [segmentAux_blank_nil hb]
        obtain ⟨h1, -⟩ := ih (i + 1) none [] counter (by simp)
        constructor
        · simpa using h1
        · intro h
          exact absurd rfl h
      | cons l0 ls0 =>
        have hcur : cur ≠ none := by
          intro h
          have := hinv.mpr h
          simp at this
        rw [segmentAux_blank_cons hb]
        obtain ⟨h1, h2⟩ := ih (i + 1) cur ((l0 :: ls0) ++ [line]) counter (by
          constructor
          · intro h
            simp at h
          · intro h
            exact absurd h hcur)
        constructor
        · rw [h1]
          simp
        · intro h
          exact h2 h
    · cases hm : isSceneHeader (pyStrip line) with
      | some m =>
        rw [segmentAux_header hb hm]
        obtain ⟨h1, h2⟩ := ih (i + 1)
          (some { scene_number := m.number, header := pyStrip line,
                  line_start := i + 1, location := m.location,
                  time_of_day := m.time_of_day,
                  interior_exterior := m.int_ext }) [line] (counter + 1) (by simp)
        have h3 := h2 (by simp)
        rw [h3] at h1
        simp only [List.nil_append] at h1
        cases cur with
        | none =>
          have h0 : curLines = [] := hinv.mpr rfl
          subst h0
          constructor
          · simp [h3, h1]
          · intro h
            exact absurd rfl h
        | some o =>
          have h0 : curLines ≠ [] := by
            intro h
            exact Option.noConfusion (hinv.mp h)
          cases curLines with
          | nil => exact absurd rfl h0
          | cons cl0 cls =>
            constructor
            · simp [h3, h1, finalizeScene_span]
            · intro _
              exact h3
      | none =>
        cases cur with
        | some o =>
          rw [segmentAux_body_some hb hm]
          obtain ⟨h1, h2⟩ := ih (i + 1) (some o) (curLines ++ [line]) counter (by
            constructor
            · intro h
              simp at h
            · intro h
              exact Option.noConfusion h)
          constructor
          · rw [h1]
            simp
          · exact h2
        | none =>
          have h0 : curLines = [] := hinv.mpr rfl
          subst h0
          rw [segmentAux_body_none hb hm]
          obtain ⟨h1, -⟩ := ih (i + 1) none [] counter (by simp)
          constructor
          · simpa using h1
          · intro h
            exact absurd rfl h

/-- Every scene the loop emits was produced by `finalizeScene`, so its text
is the stripped newline join of its span. -/
theorem segmentAux_text_eq_span :
    ∀ (lines : List String) (i : Nat) (cur : Option OpenScene)
      (curLines : List String) (counter : Nat),
      ∀ sc ∈ (segmentAux lines i cur curLines counter).2,
        sc.text = pyStrip (pyJoin "\n" sc.span) := by
  intro lines
  induction lines with
  | nil =>
    intro i cur curLines counter sc hsc
    cases cur with
    | none => simp [segmentAux_nil_none] at hsc
    | some o =>
      rw [segmentAux_nil_some] at hsc
      by_cases h : curLines.isEmpty
      · simp [h] at hsc
      · simp only [h, Bool.false_eq_true, if_neg, if_false] at hsc
        cases hsc with
        | head => rfl
        | tail _ h2 => exact absurd h2 (List.not_mem_nil sc)
  | cons line rest ih =>
    intro i cur curLines counter sc hsc
    by_cases hb : pyStrip line = ""
    · cases curLines with
      | nil =>
        rw [segmentAux_blank_nil hb] at hsc
        exact ih _ _ _ _ sc hsc
      | cons l0 ls0 =>
        rw [segmentAux_blank_cons hb] at hsc
        exact ih _ _ _ _ sc hsc
    · cases hm : isSceneHeader (pyStrip line) with
      | some m =>
        rw [segmentAux_header hb hm] at hsc
        simp only [List.mem_append] at hsc
        rcases hsc with hsc | hsc
        · cases cur with
          | none => simp at hsc
          | some o =>
            by_cases h : curLines.isEmpty
            · simp [h] at hsc
            · simp only [h, Bool.false_eq_true, if_neg, if_false] at hsc
              cases hsc with
              | head => rfl
              | tail _ h2 => exact absurd h2 (List.not_mem_nil sc)
        · exact ih _ _ _ _ sc hsc
      | none =>
        cases cur with
        | some o =>
          rw [segmentAux_body_some hb hm] at hsc
          exact ih _ _ _ _ sc hsc
        | none =>
          rw [segmentAux_body_none hb hm] at hsc
          exact ih _ _ _ _ sc hsc

/-- When no stripped line is a header the loop produces no scene. -/
theorem segmentAux_no_header :
    ∀ (lines : List String) (i counter : Nat),
      (∀ l ∈ lines, pyStrip l ≠ "" → isSceneHeader (pyStrip l) = none) →
      (segmentAux lines i none [] counter).2 = [] := by
  intro lines
  induction lines with
  | nil =>
    intro i counter _
    rfl
  | cons line rest ih =>
    intro i counter hh
    by_cases hb : pyStrip line = ""
    · rw [segmentAux_blank_nil hb]
      exact ih _ _ (fun l hl => hh l (by simp [hl]))
    · have hm : isSceneHeader (pyStrip line) = none := hh line (by simp) hb
      rw [segmentAux_body_none hb hm]
      exact ih _ _ (fun l hl => hh l (by simp [hl]))

/-- All fallback scenes carry unset location, time and interior fields. -/
theorem defaultAux_fields :
    ∀ (ps cur : List String) (wc n : Nat),
      ∀ sc ∈ defaultAux ps cur wc n,
        sc.location = "" ∧ sc.time_of_day = "" ∧ sc.interior_exterior = "" := by
  intro ps
  induction ps with
  | nil =>
    intro cur wc n sc hsc
    by_cases h : cur.isEmpty <;> simp [defaultAux, h] at hsc
    · rw [hsc]
      exact ⟨rfl, rfl, rfl⟩
  | cons p ps2 ih =>
    intro cur wc n sc hsc
    by_cases h : 500 ≤ wc + (pySplitWs p).length
    · simp only [defaultAux, h, if_pos, List.mem_cons] at hsc
      rcases hsc with hsc | hsc
      · rw [hsc]
        exact ⟨rfl, rfl, rfl⟩
      · exact ih _ _ _ sc hsc
    · simp only [defaultAux, h, if_neg, if_false] at hsc
      exact ih _ _ _ sc hsc

/-- Every fallback scene except the last was flushed at the threshold. -/
theorem defaultAux_dropLast :
    ∀ (ps cur : List String) (wc n : Nat),
      ∀ sc ∈ (defaultAux ps cur wc n).dropLast, 500 ≤ sc.word_count := by
  intro ps
  induction ps with
  | nil =>
    intro cur wc n sc hsc
    by_cases h : cur.isEmpty <;> simp [defaultAux, h] at hsc
  | cons p ps2 ih =>
    intro cur wc n sc hsc
    by_cases h : 500 ≤ wc + (pySplitWs p).length
    · simp only [defaultAux, h, if_pos] at hsc
      cases hrec : defaultAux ps2 [] 0 (n + 1) with
      | nil =>
        rw [hrec] at hsc
        simp at hsc
      | cons s2 ss2 =>
        rw [hrec, List.dropLast_cons₂, List.mem_cons] at hsc
        rcases hsc with hsc | hsc
        · rw [hsc]
          exact h
        · rw [← hrec] at hsc
          exact ih _ _ _ sc hsc
    · simp only [defaultAux, h, if_neg, if_false] at hsc
      exact ih _ _ _ sc hsc

/-- Bound on the number of fallback scenes: each flushed scene accounts for
at least 500 words, the leftover for at least one. -/
theorem defaultAux_length_le :
    ∀ (ps cur : List String) (wc n : Nat),
      (cur = [] → wc = 0) → (cur ≠ [] → 1 ≤ wc) → wc < 500 →
      (∀ p ∈ ps, 1 ≤ (pySplitWs p).length) →
      (defaultAux ps cur wc n).length ≤ (wc + sumWords ps + 499) / 500 := by
  intro ps
  induction ps with
  | nil =>
    intro cur wc n h0 h1 h2 _
    cases cur with
    | nil => simp [defaultAux, sumWords]
    | cons c0 cs =>
      have hwc : 1 ≤ wc := h1 (by simp)
      have : (defaultAux [] (c0 :: cs) wc n).length = 1 := by simp [defaultAux]
      rw [this]
      rw [Nat.le_div_iff_mul_le (by omega)]
      simp [sumWords]
      omega
  | cons p ps2 ih =>
    intro cur wc n h0 h1 h2 hps
    have hw : 1 ≤ (pySplitWs p).length := hps p (by simp)
    have hsum : sumWords (p :: ps2) = (pySplitWs p).length + sumWords ps2 := by
      simp [sumWords]
    by_cases hf : 500 ≤ wc + (pySplitWs p).length
    · rw [show defaultAux (p :: ps2) cur wc n
          = mkDefaultScene n (cur ++ [p]) (wc + (pySplitWs p).length)
              :: defaultAux ps2 [] 0 (n + 1) from by
        simp [defaultAux, hf]]
      have hrec := ih [] 0 (n + 1) (fun _ => rfl)
        (fun h => absurd rfl h) (by omega) (fun q hq => hps q (by simp [hq]))
      have hstep : (sumWords ps2 + 499) / 500 + 1
          ≤ (wc + sumWords (p :: ps2) + 499) / 500 := by
        rw [hsum]
        have h500 : sumWords ps2 + 499 + 500
            ≤ wc + ((pySplitWs p).length + sumWords ps2) + 499 := by omega
        calc (sumWords ps2 + 499) / 500 + 1
            = (sumWords ps2 + 499 + 500) / 500 := by
              rw [Nat.add_div_right _ (by omega)]
          _ ≤ (wc + ((pySplitWs p).length + sumWords ps2) + 499) / 500 :=
              Nat.div_le_div_right h500
      have hrec2 : (defaultAux ps2 [] 0 (n + 1)).length
          ≤ (sumWords ps2 + 499) / 500 := by simpa using hrec
      simp only [List.length_cons]
      omega
    · rw [show defaultAux (p :: ps2) cur wc n
          = defaultAux ps2 (cur ++ [p]) (wc + (pySplitWs p).length) n from by
        simp [defaultAux, hf]]
      have hrec := ih (cur ++ [p]) (wc + (pySplitWs p).length) n
        (by simp) (fun _ => by omega) (by omega)
        (fun q hq => hps q (by simp [hq]))
      rw [hsum, show wc + ((pySplitWs p).length + sumWords ps2) + 499
          = wc + (pySplitWs p).length + sumWords ps2 + 499 from by omega]
      exact hrec

/-- A non-empty paragraph list (or pending group) yields at least one
fallback scene. -/
theorem defaultAux_pos :
    ∀ (ps cur : List String) (wc n : Nat), ps ≠ [] ∨ cur ≠ [] →
      1 ≤ (defaultAux ps cur wc n).length := by
  intro ps
  induction ps with
  | nil =>
    intro cur wc n h
    rcases h with h | h
    · exact absurd rfl h
    · cases cur with
      | nil => exact absurd rfl h
      | cons c0 cs => simp [defaultAux]
  | cons p ps2 ih =>
    intro cur wc n _
    by_cases hf : 500 ≤ wc + (pySplitWs p).length
    · rw [show defaultAux (p :: ps2) cur wc n
          = mkDefaultScene n (cur ++ [p]) (wc + (pySplitWs p).length)
              :: defaultAux ps2 [] 0 (n + 1) from by
        simp [defaultAux, hf]]
      simp
    · rw [show defaultAux (p :: ps2) cur wc n
          = defaultAux ps2 (cur ++ [p]) (wc + (pySplitWs p).length) n from by
        simp [defaultAux, hf]]
      exact ih _ _ _ (Or.inr (by simp))

/-- The filtered, stripped paragraphs carry together exactly the word count
of the pieces they came from. -/
theorem sumWords_pieces :
    ∀ pieces : List (List Char),
      sumWords ((pieces.map (fun pc => pyStrip ⟨pc⟩)).filter (fun p => p ≠ ""))
        = (pieces.map (fun pc => (tokensL pc).length)).sum := by
  intro pieces
  induction pieces with
  | nil => simp [sumWords]
  | cons pc rest ih =>
    by_cases h : stripL pc = []
    · have h1 : pyStrip ⟨pc⟩ = "" := by
        rw [String.ext_iff]
        simpa [pyStrip] using h
      have h2 : (tokensL pc).length = 0 := by
        have := tokensL_stripL pc
        rw [h] at this
        simp [show tokensL ([] : List Char) = [] from rfl] at this
        simp [← this]
      simp only [List.map_cons, List.filter_cons, h1]
      simp only [List.map_cons, List.sum_cons, h2]
      simpa using ih
    · have h1 : pyStrip ⟨pc⟩ ≠ "" := by
        intro hcon
        apply h
        have := congrArg String.data hcon
        simpa [pyStrip] using this
      have h2 : (pySplitWs (pyStrip ⟨pc⟩)).length = (tokensL pc).length := by
        simp [pySplitWs, pyStrip, tokensL_stripL]
      simp only [List.map_cons, List.filter_cons]
      rw [if_pos (by simpa using h1)]
      simp only [sumWords, List.map_cons, List.sum_cons] at ih ⊢
      rw [h2]
      omega

/-- The paragraph decomposition preserves the total word count. -/
theorem sumWords_paragraphsOf (text : String) :
    sumWords (paragraphsOf text) = totalWords text := by
  have hsep : ("\n\n".data : List Char) ≠ [] := by decide
  have hws : ∀ c ∈ ("\n\n".data : List Char), isPyWs c := by decide
  obtain ⟨p, rest, hsplit, htok⟩ :=
    splitSepFuel_tokens hsep hws text.data.length text.data [] (Nat.le_refl _)
  have htot : totalWords text = ((splitSepL "\n\n".data text.data).map
      (fun pc => (tokensL pc).length)).sum := by
    have : tokensL text.data = ((splitSepL "\n\n".data text.data).map tokensL).flatten := by
      rw [splitSepL, hsplit]
      simpa [tokensL] using htok
    simp only [totalWords, pySplitWs, List.length_map]
    rw [this, List.length_flatten, List.map_map]
    rfl
  have hpara : paragraphsOf text
      = (((splitSepL "\n\n".data text.data).map (fun pc => pyStrip ⟨pc⟩)).filter
          (fun p => p ≠ "")) := by
    simp only [paragraphsOf, pySplit]
    rw [List.map_map]
    rfl
  rw [hpara, sumWords_pieces, htot]

/-- The character counter never decreases across one collection step. -/
theorem descStep_le (st : List String × Nat) (s : String) :
    st.2 ≤ (descStep st s).2 := by
  by_cases h : pyStrip s ≠ "" ∧ st.2 < 200
  · simp [descStep, h.1, h.2]
  · rcases Decidable.not_and_iff_or_not.mp h with h1 | h1
    · simp [descStep, show pyStrip s = "" from not_not.mp h1]
    · simp only [descStep]
      rw [if_neg (by simp [h1])]

/-- The character counter never decreases across the collection loop. -/
theorem foldl_descStep_le :
    ∀ (ss : List String) (st : List String × Nat), st.2 ≤ (ss.foldl descStep st).2 := by
  intro ss
  induction ss with
  | nil => intro st; exact Nat.le_refl _
  | cons s ss2 ih =>
    intro st
    exact Nat.le_trans (descStep_le st s) (ih (descStep st s))

/-- After the loop the counter has either reached the 200 threshold or
equals the initial counter plus every stripped sentence length seen. -/
theorem foldl_descStep_sum :
    ∀ (ss : List String) (st : List String × Nat),
      200 ≤ (ss.foldl descStep st).2 ∨
        (ss.foldl descStep st).2 = st.2 + (ss.map (fun s => (pyStrip s).length)).sum := by
  intro ss
  induction ss with
  | nil =>
    intro st
    right
    simp
  | cons s ss2 ih =>
    intro st
    by_cases h : pyStrip s ≠ "" ∧ st.2 < 200
    · have hstep : descStep st s = (st.1 ++ [pyStrip s], st.2 + (pyStrip s).length) := by
        simp [descStep, h.1, h.2]
      rcases ih (descStep st s) with h1 | h1
      · left
        simpa using h1
      · right
        rw [hstep] at h1
        simp only [List.foldl_cons, hstep, h1, List.map_cons, List.sum_cons]
        omega
    · rcases Decidable.not_and_iff_or_not.mp h with h1 | h1
      · have h1 : pyStrip s = "" := not_not.mp h1
        have hstep : descStep st s = st := by simp [descStep, h1]
        rcases ih st with h2 | h2
        · left
          simpa [hstep] using h2
        · right
          simp only [List.foldl_cons, hstep, h2, List.map_cons, List.sum_cons, h1]
          simp
      · have h200 : 200 ≤ st.2 := by omega
        have hstep : descStep st s = st := by
          simp only [descStep]
          rw [if_neg (by simp [h1])]
        left
        simp only [List.foldl_cons, hstep]
        exact Nat.le_trans h200 (foldl_descStep_le ss2 st)

/-- The counter is bounded by the total length of the kept sentences. -/
theorem foldl_descStep_parts :
    ∀ (ss : List String) (st : List String × Nat),
      st.2 ≤ (st.1.map String.length).sum →
      (ss.foldl descStep st).2 ≤ ((ss.foldl descStep st).1.map String.length).sum := by
  intro ss
  induction ss with
  | nil => intro st h; exact h
  | cons s ss2 ih =>
    intro st h
    apply ih
    by_cases hc : pyStrip s ≠ "" ∧ st.2 < 200
    · have hstep : descStep st s = (st.1 ++ [pyStrip s], st.2 + (pyStrip s).length) := by
        simp [descStep, hc.1, hc.2]
      rw [hstep]
      simp only [List.map_append, List.sum_append, List.map_cons, List.sum_cons]
      simp
      omega
    · rcases Decidable.not_and_iff_or_not.mp hc with h1 | h1
      · have h1 : pyStrip s = "" := not_not.mp h1
        simpa [descStep, h1] using h
      · have hstep : descStep st s = st := by
          simp only [descStep]
          rw [if_neg (by simp [h1])]
        rw [hstep]
        exact h

/-- The join is at least as long as its pieces together. -/
theorem pyJoin_length_ge (sep : String) (l : List String) :
    (l.map String.length).sum ≤ (pyJoin sep l).length := by
  have := joinSepL_length_ge sep.data (l.map String.data)
  simpa [pyJoin, String.length, List.map_map] using this

/-- Stripping only removes characters. -/
theorem stripL_subset (s : List Char) : ∀ c ∈ stripL s, c ∈ s := by
  intro c hc
  simp only [stripL, List.mem_reverse] at hc
  have h1 := (List.dropWhile_sublist (p := isPyWs)
    (l := (s.dropWhile isPyWs).reverse)).subset hc
  rw [List.mem_reverse] at h1
  exact (List.dropWhile_sublist (p := isPyWs) (l := s)).subset h1

/-- Characters of a join come from the separator or the pieces. -/
theorem joinSepL_mem {sep : List Char} :
    ∀ (ts : List (List Char)), ∀ c ∈ joinSepL sep ts, c ∈ sep ∨ ∃ t ∈ ts, c ∈ t := by
  intro ts
  induction ts with
  | nil => intro c hc; simp [joinSepL] at hc
  | cons t rest ih =>
    intro c hc
    cases rest with
    | nil =>
      right
      exact ⟨t, by simp, by simpa [joinSepL] using hc⟩
    | cons u rest2 =>
      simp only [joinSepL, List.append_assoc, List.mem_append] at hc
      rcases hc with hc | hc | hc
      · right
        exact ⟨t, by simp, hc⟩
      · left
        exact hc
      · rcases ih c hc with h | ⟨v, hv, hcv⟩
        · left
          exact h
        · right
          exact ⟨v, by simp [List.mem_cons.mp hv], hcv⟩

/-- Tokenization commutes with a character map that preserves
whitespace-ness of the characters involved. -/
theorem tokensAux_map {f : Char → Char} :
    ∀ (s : List Char), (∀ c ∈ s, isPyWs (f c) = isPyWs c) →
      ∀ acc, tokensAux (s.map f) (acc.map f) = (tokensAux s acc).map (List.map f) := by
  intro s
  induction s with
  | nil =>
    intro _ acc
    cases acc <;> simp [tokensAux]
  | cons c t ih =>
    intro hf acc
    have hc : isPyWs (f c) = isPyWs c := hf c (by simp)
    have ht : ∀ d ∈ t, isPyWs (f d) = isPyWs d := fun d hd => hf d (by simp [hd])
    by_cases hws : isPyWs c
    · cases acc with
      | nil =>
        simp only [List.map_cons, List.map_nil]
        rw [show tokensAux (f c :: t.map f) [] = tokensAux (t.map f) [] from by
          simp [tokensAux, hc, hws],
          show tokensAux (c :: t) [] = tokensAux t [] from by simp [tokensAux, hws]]
        simpa using ih ht []
      | cons a as =>
        simp only [List.map_cons]
        rw [show tokensAux (f c :: t.map f) (f a :: as.map f)
            = (f a :: as.map f).reverse :: tokensAux (t.map f) [] from by
          simp [tokensAux, hc, hws],
          show tokensAux (c :: t) (a :: as)
            = (a :: as).reverse :: tokensAux t [] from by simp [tokensAux, hws]]
        have := ih ht []
        simp only [List.map_nil] at this
        simp [this, List.map_reverse]
    · simp only [List.map_cons]
      rw [show tokensAux (f c :: t.map f) (acc.map f)
          = tokensAux (t.map f) (f c :: acc.map f) from by simp [tokensAux, hc, hws],
        show tokensAux (c :: t) acc = tokensAux t (c :: acc) from by
          simp [tokensAux, hws]]
      have := ih ht (c :: acc)
      simpa using this

/-- Token count is preserved by a whitespace-preserving character map. -/
theorem tokensL_map_length {f : Char → Char} {s : List Char}
    (hf : ∀ c ∈ s, isPyWs (f c) = isPyWs c) :
    (tokensL (s.map f)).length = (tokensL s).length := by
  have := tokensAux_map s hf []
  simp only [List.map_nil] at this
  simp [tokensL, this]

/-- Every piece of a split of an all-whitespace string strips to empty. -/
theorem pySplit_all_ws {text : String} (sep : String)
    (hall : ∀ c ∈ text.data, isPyWs c) :
    ∀ l ∈ pySplit sep text, pyStrip l = "" := by
  intro l hl
  simp only [pySplit, List.mem_map] at hl
  obtain ⟨pc, hpc, rfl⟩ := hl
  have hsub := splitSepFuel_subset _ _ pc hpc
  have hws : ∀ c ∈ pc, isPyWs c := fun c hc => hall c (hsub c hc)
  rw [String.ext_iff]
  simpa [pyStrip] using stripL_eq_nil_iff.mpr hws

/-- A text without newlines is a single line. -/
theorem pySplit_nl_single {text : String} (h : '\n' ∉ text.data) :
    pySplit "\n" text = [text] := by
  simp only [pySplit, splitSepL]
  rw [splitSepFuel_single rfl _ _ (Nat.le_refl _) h]
  rfl

/-- A text without newlines is a single paragraph chunk. -/
theorem pySplit_nn_single {text : String} (h : '\n' ∉ text.data) :
    pySplit "\n\n" text = [text] := by
  simp only [pySplit, splitSepL]
  rw [splitSepFuel_single rfl _ _ (Nat.le_refl _) h]
  rfl

/-- Each kept paragraph contributes at least one word. -/
theorem paragraphsOf_words (text : String) :
    ∀ p ∈ paragraphsOf text, 1 ≤ (pySplitWs p).length := by
  intro p hp
  simp only [paragraphsOf, List.mem_filter, List.mem_map, pySplit] at hp
  obtain ⟨⟨q, ⟨pc, hpc, hq⟩, hpq⟩, hne⟩ := hp
  subst hq
  subst hpq
  have hne2 : stripL pc ≠ [] := by
    intro hcon
    have : pyStrip ⟨pc⟩ = "" := by
      rw [String.ext_iff]
      simpa [pyStrip] using hcon
    simp [this] at hne
  have htok : tokensL (stripL pc) ≠ [] := by
    intro hcon
    rw [tokensL_stripL] at hcon
    exact hne2 (stripL_eq_nil_iff.mpr (tokensL_eq_nil_iff.mp hcon))
  have : (pySplitWs (pyStrip ⟨pc⟩)).length = (tokensL (stripL pc)).length := by
    simp [pySplitWs, pyStrip]
  rw [this]
  exact Nat.one_le_iff_ne_zero.mpr (fun hcon =>
    htok (List.length_eq_zero.mp hcon))

/-- A case-folded mismatch at the first character refutes the whole
case-insensitive prefix test. -/
theorem ciPrefixL_head_false {p0 c : Char} {ps s : List Char}
    (h : (toLowerCh p0 == toLowerCh c) = false) :
    ciPrefixL (p0 :: ps) (c :: s) = false := by
  rw [show ciPrefixL (p0 :: ps) (c :: s)
      = ((toLowerCh p0 == toLowerCh c) && ciPrefixL ps s) from rfl, h,
    Bool.false_and]

/-- Lines made only of `'a'` and spaces never match pattern 1. -/
theorem scenePat1_aa : ∀ (s : List Char), (∀ c ∈ s, c = 'a' ∨ c = ' ') →
    scenePat1 s = none := by
  intro s
  induction s with
  | nil => intro _; rfl
  | cons c t ih =>
    intro h
    have hc := h c (by simp)
    have e1 : ciPrefixL "сцена".data (c :: t) = false := by
      rcases hc with rfl | rfl <;> exact ciPrefixL_head_false (by decide)
    have e2 : ciPrefixL "сц.".data (c :: t) = false := by
      rcases hc with rfl | rfl <;> exact ciPrefixL_head_false (by decide)
    have hAt : scenePat1At (c :: t) = none := by
      simp [scenePat1At, e1, e2]
    simp only [scenePat1, hAt]
    exact ih (fun d hd => h d (by simp [hd]))

/-- Lines made only of `'a'` and spaces never match pattern 2. -/
theorem scenePat2_aa (s : List Char) (h : ∀ c ∈ s, c = 'a' ∨ c = ' ') :
    scenePat2 s = none := by
  cases s with
  | nil => rfl
  | cons c t =>
    have hc := h c (by simp)
    have hd : isDigitCh c = false := by
      rcases hc with rfl | rfl <;> decide
    simp [scenePat2, List.takeWhile_cons, hd]

/-- Lines made only of `'a'` and spaces never match pattern 3. -/
theorem scenePat3_aa : ∀ (s : List Char), (∀ c ∈ s, c = 'a' ∨ c = ' ') →
    scenePat3 s = none := by
  intro s
  induction s with
  | nil => intro _; rfl
  | cons c t ih =>
    intro h
    have hc := h c (by simp)
    have hcond : (decide (c = '№') || decide (c = '#')) = false := by
      rcases hc with rfl | rfl <;> decide
    simp only [scenePat3, hcond, Bool.false_eq_true, if_false]
    exact ih (fun d hd => h d (by simp [hd]))

/-- Lines made only of `'a'` and spaces never match pattern 4. -/
theorem scenePat4_aa (s : List Char) (h : ∀ c ∈ s, c = 'a' ∨ c = ' ') :
    scenePat4 s = false := by
  cases s with
  | nil => rfl
  | cons c t =>
    have hc := h c (by simp)
    have e1 : ciPrefixL "int.".data (c :: t) = false := by
      rcases hc with rfl | rfl <;> exact ciPrefixL_head_false (by decide)
    have e2 : ciPrefixL "ext.".data (c :: t) = false := by
      rcases hc with rfl | rfl <;> exact ciPrefixL_head_false (by decide)
    simp [scenePat4, e1, e2]

/-- A long line made only of `'a'` and spaces is not recognized as a scene
header by any rule, the loose heuristic included. -/
theorem isSceneHeader_aa (s : List Char) (h : ∀ c ∈ s, c = 'a' ∨ c = ' ')
    (hlen : 10 < (tokensL s).length) :
    isSceneHeader ⟨s⟩ = none := by
  have hpn : patternNumber s = none := by
    simp [patternNumber, scenePat1_aa s h, scenePat2_aa s h, scenePat3_aa s h,
      scenePat4_aa s h]
  have hf2 : ∀ c ∈ s, isPyWs (toUpperCh c) = isPyWs c := by
    intro c hcm
    rcases h c hcm with rfl | rfl <;> decide
  have hgt : 10 < (tokensL (pyUpperL s)).length := by
    rw [show pyUpperL s = s.map toUpperCh from rfl, tokensL_map_length hf2]
    exact hlen
  have hdec : (decide ((tokensL (pyUpperL s)).length ≤ 10)) = false :=
    decide_eq_false (Nat.not_le.mpr hgt)
  have hlook : looksLikeSceneHeader (pyUpper ⟨s⟩) = false := by
    simp only [looksLikeSceneHeader, pyUpper]
    rw [hdec, Bool.false_and]
    simp
  simp [isSceneHeader, hpn, hlook]

/-- When the loop found no header, `segment` is the fallback segmentation. -/
theorem segment_eq_default {text : String}
    (hh : ∀ l ∈ pySplit "\n" text, pyStrip l ≠ "" → isSceneHeader (pyStrip l) = none) :
    segment text = createDefaultScenes text := by
  have h2 : (segmentFull text).2 = [] := segmentAux_no_header _ 0 0 hh
  simp [segment, h2]

/-- Projection equation of `pyStrip`, for rewriting without evaluation. -/
theorem pyStrip_data (s : String) : (pyStrip s).data = stripL s.data := rfl

/-- Unfolding equation of `pySplitWs`, for rewriting without evaluation. -/
theorem pySplitWs_eq (s : String) :
    pySplitWs s = (tokensL s.data).map (fun l => (⟨l⟩ : String)) := rfl

/-- Unfolding equation of `createDefaultScenes`. -/
theorem createDefaultScenes_eq (text : String) :
    createDefaultScenes text = defaultAux (paragraphsOf text) [] 0 1 := rfl

/-- Unfolding equation of `defaultAux` on a paragraph. -/
theorem defaultAux_cons (p : String) (ps cur : List String) (wc n : Nat) :
    defaultAux (p :: ps) cur wc n
      = if 500 ≤ wc + (pySplitWs p).length then
          mkDefaultScene n (cur ++ [p]) (wc + (pySplitWs p).length)
            :: defaultAux ps [] 0 (n + 1)
        else defaultAux ps (cur ++ [p]) (wc + (pySplitWs p).length) n := rfl

/-- Projection equation of `pyJoin`, for rewriting without evaluation. -/
theorem pyJoin_data (sep : String) (l : List String) :
    (pyJoin sep l).data = joinSepL sep.data (l.map String.data) := rfl

/-!
The claims.
-/

/-- C1 (code_bug evidence): on the input whose only header matches the
English-slugline rule — which captures no numeral — the emitted scene's
`sceneNumber` is `None`, not the sequential counter value 1 the claim and
specification require: `_is_scene_header` always stores the key `'number'`
(as `None` when the rule captured nothing), so `scene_match.get('number',
current_scene_number)` returns that stored `None` and its default is dead. -/
theorem scene_number_none_on_english_slugline :
    (segment "INT. KITCHEN - DAY\nHello.").map Scene.scene_number = [none] := by
  decide

/-- C2 (counterexample): concatenating the emitted scenes' `rawText` after
the discarded preamble does not reconstruct every input line: finalization
strips each scene's accumulated body, so the blank line separating the two
scenes of this input is lost (4 lines are covered of the input's 5). -/
theorem raw_text_reconstruction_fails :
    linesCovered "СЦЕНА 1\nтекст\n\nСЦЕНА 2\nещё"
        ≠ pySplit "\n" "СЦЕНА 1\nтекст\n\nСЦЕНА 2\nещё" ∧
    (segment "СЦЕНА 1\nтекст\n\nСЦЕНА 2\nещё").map Scene.text
        = ["СЦЕНА 1\nтекст", "СЦЕНА 2\nещё"] := by
  constructor
  · decide
  · decide

/-- C2 (amended): at the granularity of the accumulated line spans the
coverage invariant holds for every input: the discarded preamble followed by
the scenes' spans, in detection order, is exactly the input's line list (so
no line is assigned to two scenes and every line from the first header to
end-of-input is covered once); each scene's `rawText` is the stripped
newline-join of its span, which is where exact textual reconstruction is
lost. -/
theorem span_partition (text : String) :
    spansCovered text = pySplit "\n" text ∧
    ∀ sc ∈ (segmentFull text).2, sc.text = pyStrip (pyJoin "\n" sc.span) := by
  constructor
  · have h := (segmentAux_partition (pySplit "\n" text) 0 none [] 0 (by simp)).1
    simpa [spansCovered, segmentFull] using h
  · intro sc hsc
    exact segmentAux_text_eq_span _ _ _ _ _ sc hsc

/-- C3 (code_bug evidence): the loose header heuristic accepts a line that
is not upper-cased in the input: `_is_scene_header` calls
`_looks_like_scene_header(line.upper())`, so the `line.isupper()` test
inside it examines the already upper-cased copy and is vacuous (contradicting
the function's own comment and the specification); the all-lower-case
three-token line "день был тёплый" containing the time keyword ДЕНЬ is
classified as a scene header. -/
theorem loose_heuristic_accepts_lowercase :
    pyIsUpper "день был тёплый" = false ∧
    looksLikeSceneHeader (pyUpper "день был тёплый") = true ∧
    isSceneHeader "день был тёплый"
      = some { number := none, location := "день был тёплый",
               time_of_day := "День", int_ext := "" } := by
  refine ⟨by decide, by decide, by decide⟩

set_option maxRecDepth 40000 in
/-- C5 (counterexample): a headerless text of 501 words in a single
paragraph produces one fallback scene, not `ceil(501/500) = 2`: the greedy
grouping flushes only at paragraph boundaries, so a paragraph larger than
the threshold is never divided. -/
theorem fallback_count_below_ceiling :
    totalWords (pyJoin " " (List.replicate 501 "a")) = 501 ∧
    (segment (pyJoin " " (List.replicate 501 "a"))).length = 1 ∧
    (segment (pyJoin " " (List.replicate 501 "a"))).length
      ≠ ceil500 (totalWords (pyJoin " " (List.replicate 501 "a"))) := by
  have hmap : (List.replicate 501 "a").map String.data
      = List.replicate 501 ['a'] := by
    rw [List.map_replicate]
  have hdata : (pyJoin " " (List.replicate 501 "a")).data
      = joinSepL [' '] (List.replicate 501 ['a']) := by
    rw [pyJoin_data, hmap]
  have htoks : tokensL (joinSepL [' '] (List.replicate 501 ['a']))
      = List.replicate 501 ['a'] := by
    apply tokensL_join_tokens
    intro t ht
    rw [List.eq_of_mem_replicate ht]
    exact ⟨by decide, by decide⟩
  have hW : totalWords (pyJoin " " (List.replicate 501 "a")) = 501 := by
    unfold totalWords pySplitWs
    rw [hdata, htoks, List.length_map, List.length_replicate]
  have hchars : ∀ c ∈ (pyJoin " " (List.replicate 501 "a")).data,
      c = 'a' ∨ c = ' ' := by
    intro c hc
    rw [hdata] at hc
    rcases joinSepL_mem _ c hc with hsep | ⟨u, hu, hcu⟩
    · right
      simpa using hsep
    · left
      rw [List.eq_of_mem_replicate hu] at hcu
      simpa using hcu
  have hnl : '\n' ∉ (pyJoin " " (List.replicate 501 "a")).data := by
    intro hc
    rcases hchars _ hc with h | h <;> exact absurd h (by decide)
  have hstriptoks : tokensL (pyStrip (pyJoin " " (List.replicate 501 "a"))).data
      = List.replicate 501 ['a'] := by
    rw [pyStrip_data, tokensL_stripL, hdata, htoks]
  have hh : ∀ l ∈ pySplit "\n" (pyJoin " " (List.replicate 501 "a")),
      pyStrip l ≠ "" → isSceneHeader (pyStrip l) = none := by
    rw [pySplit_nl_single hnl]
    intro l hl _
    rw [List.mem_singleton] at hl
    subst hl
    have hchars2 : ∀ c ∈ (pyStrip (pyJoin " " (List.replicate 501 "a"))).data,
        c = 'a' ∨ c = ' ' := by
      rw [pyStrip_data]
      exact fun c hc => hchars c (stripL_subset _ c hc)
    have hlen2 : 10 < (tokensL (pyStrip (pyJoin " " (List.replicate 501 "a"))).data).length := by
      rw [hstriptoks, List.length_replicate]
      norm_num
    exact isSceneHeader_aa _ hchars2 hlen2
  have hne : pyStrip (pyJoin " " (List.replicate 501 "a")) ≠ "" := by
    intro hcon
    have h0 : tokensL (pyStrip (pyJoin " " (List.replicate 501 "a"))).data = [] := by
      rw [hcon]
      rfl
    rw [hstriptoks] at h0
    simp at h0
  have hcount : (pySplitWs (pyStrip (pyJoin " " (List.replicate 501 "a")))).length
      = 501 := by
    rw [pySplitWs_eq, hstriptoks, List.length_map, List.length_replicate]
  have hparas : paragraphsOf (pyJoin " " (List.replicate 501 "a"))
      = [pyStrip (pyJoin " " (List.replicate 501 "a"))] := by
    rw [show paragraphsOf (pyJoin " " (List.replicate 501 "a"))
        = ((pySplit "\n\n" (pyJoin " " (List.replicate 501 "a"))).map pyStrip).filter
            (fun p => p ≠ "") from rfl]
    rw [pySplit_nn_single hnl]
    rw [List.map_cons, List.map_nil, List.filter_cons,
      if_pos (by exact decide_eq_true hne)]
    rfl
  have hscenes : segment (pyJoin " " (List.replicate 501 "a"))
      = [mkDefaultScene 1 [pyStrip (pyJoin " " (List.replicate 501 "a"))] 501] := by
    rw [segment_eq_default hh, createDefaultScenes_eq, hparas, defaultAux_cons,
      hcount, if_pos (by norm_num)]
    norm_num
    rfl
  refine ⟨hW, by rw [hscenes]; rfl, ?_⟩
  rw [hscenes, hW]
  decide

/-- C5 (amended): for every headerless input (no stripped line matches any
header rule) the fallback segmenter runs; it produces at most `ceil(W/500)`
scenes — and at least one when the text has any word — every produced scene
except the last has `wordCount ≥ 500`, and every fallback scene has
location, time-of-day and interior/exterior unset. -/
theorem fallback_properties (text : String)
    (hh : ∀ l ∈ pySplit "\n" text, pyStrip l ≠ "" → isSceneHeader (pyStrip l) = none) :
    segment text = createDefaultScenes text ∧
    (∀ sc ∈ (segment text).dropLast, 500 ≤ sc.word_count) ∧
    (∀ sc ∈ segment text,
      sc.location = "" ∧ sc.time_of_day = "" ∧ sc.interior_exterior = "") ∧
    (segment text).length ≤ ceil500 (totalWords text) ∧
    (1 ≤ totalWords text → 1 ≤ (segment text).length) := by
  have hseg : segment text = createDefaultScenes text := segment_eq_default hh
  rw [hseg, createDefaultScenes_eq]
  refine ⟨rfl, ?_, ?_, ?_, ?_⟩
  · exact fun sc hsc => defaultAux_dropLast _ _ _ _ sc hsc
  · exact fun sc hsc => defaultAux_fields _ _ _ _ sc hsc
  · have hb := defaultAux_length_le (paragraphsOf text) [] 0 1
      (fun _ => rfl) (fun hcon => absurd rfl hcon) (by omega)
      (paragraphsOf_words text)
    rw [sumWords_paragraphsOf] at hb
    simpa [ceil500] using hb
  · intro hW
    apply defaultAux_pos
    left
    intro hnil
    have hz := sumWords_paragraphsOf text
    rw [hnil] at hz
    simp [sumWords] at hz
    omega

/-- C5 (witness): the amended fallback theorem applied to the concrete
headerless three-word text. -/
theorem fallback_properties_witness :
    segment "b b b" = createDefaultScenes "b b b" ∧
    (∀ sc ∈ (segment "b b b").dropLast, 500 ≤ sc.word_count) ∧
    (∀ sc ∈ segment "b b b",
      sc.location = "" ∧ sc.time_of_day = "" ∧ sc.interior_exterior = "") ∧
    (segment "b b b").length ≤ ceil500 (totalWords "b b b") ∧
    (1 ≤ totalWords "b b b" → 1 ≤ (segment "b b b").length) :=
  fallback_properties "b b b" (by decide)

/-- Hard truncation to 197 characters plus an ellipsis yields exactly 200
characters whenever the input exceeds 200. -/
theorem truncate_length (s : String) (h : 200 < s.length) :
    (⟨s.data.take 197 ++ "...".data⟩ : String).length = 200 := by
  rw [show (⟨s.data.take 197 ++ "...".data⟩ : String).length
      = (s.data.take 197 ++ "...".data).length from rfl,
    List.length_append, List.length_take,
    show ("...".data).length = 3 from rfl]
  have h2 : s.data.length = s.length := rfl
  omega

/-- Pieces of the terminator split contain no terminator characters (the
split pattern `[.!?]+` consumes every terminator it meets). -/
theorem splitTermAux_no_term :
    ∀ (s : List Char) (o : Option (List Char)),
      (∀ a, o = some a → ∀ c ∈ a, isTermCh c = false) →
      ∀ p ∈ splitTermAux s o, ∀ c ∈ p, isTermCh c = false := by
  intro s
  induction s with
  | nil =>
    intro o ho p hp
    cases o with
    | some a =>
      simp only [splitTermAux, List.mem_singleton] at hp
      subst hp
      intro c hc
      exact ho a rfl c (List.mem_reverse.mp hc)
    | none =>
      simp only [splitTermAux, List.mem_singleton] at hp
      subst hp
      intro c hc
      exact absurd hc (List.not_mem_nil c)
  | cons c t ih =>
    intro o ho p hp
    cases o with
    | some a =>
      by_cases hterm : isTermCh c = true
      · rw [show splitTermAux (c :: t) (some a)
            = a.reverse :: splitTermAux t none from by
          simp [splitTermAux, hterm]] at hp
        rcases List.mem_cons.mp hp with rfl | hp2
        · intro d hd
          exact ho a rfl d (List.mem_reverse.mp hd)
        · exact ih none (fun a2 ha2 => Option.noConfusion ha2) p hp2
      · rw [show splitTermAux (c :: t) (some a)
            = splitTermAux t (some (c :: a)) from by
          simp [splitTermAux, hterm]] at hp
        refine ih (some (c :: a)) ?_ p hp
        intro a2 ha2 d hd
        rw [Option.some.inj ha2.symm] at hd
        rcases List.mem_cons.mp hd with rfl | hd2
        · exact Bool.eq_false_iff.mpr hterm
        · exact ho a rfl d hd2
    | none =>
      by_cases hterm : isTermCh c = true
      · rw [show splitTermAux (c :: t) none = splitTermAux t none from by
          simp [splitTermAux, hterm]] at hp
        exact ih none (fun a2 ha2 => Option.noConfusion ha2) p hp
      · rw [show splitTermAux (c :: t) none = splitTermAux t (some [c]) from by
          simp [splitTermAux, hterm]] at hp
        refine ih (some [c]) ?_ p hp
        intro a2 ha2 d hd
        rw [Option.some.inj ha2.symm] at hd
        rcases List.mem_singleton.mp hd with rfl
        exact Bool.eq_false_iff.mpr hterm

/-- Every sentence of `re.split(r'[.!?]+', text)` is terminator-free. -/
theorem splitTermRuns_no_term (s : List Char) :
    ∀ p ∈ splitTermRuns s, ∀ c ∈ p, isTermCh c = false := by
  refine splitTermAux_no_term s (some []) ?_
  intro a ha c hc
  rw [← Option.some.inj ha] at hc
  exact absurd hc (List.not_mem_nil c)

/-- Every sentence kept by the collection loop either was in the initial
state or is the nonempty strip of a visited sentence. -/
theorem foldl_descStep_mem :
    ∀ (ss : List String) (st : List String × Nat) (p : String),
      p ∈ (ss.foldl descStep st).1 →
      p ∈ st.1 ∨ ∃ s ∈ ss, p = pyStrip s ∧ pyStrip s ≠ "" := by
  intro ss
  induction ss with
  | nil => intro st p hp; exact Or.inl hp
  | cons s ss2 ih =>
    intro st p hp
    simp only [List.foldl_cons] at hp
    rcases ih (descStep st s) p hp with h1 | ⟨s2, hs2, heq⟩
    · by_cases hc : pyStrip s ≠ "" ∧ st.2 < 200
      · have hstep : descStep st s
            = (st.1 ++ [pyStrip s], st.2 + (pyStrip s).length) := by
          simp [descStep, hc.1, hc.2]
        rw [hstep] at h1
        rcases List.mem_append.mp h1 with h2 | h2
        · exact Or.inl h2
        · exact Or.inr ⟨s, by simp, List.mem_singleton.mp h2, hc.1⟩
      · rcases Decidable.not_and_iff_or_not.mp hc with h2 | h2
        · have h2 : pyStrip s = "" := not_not.mp h2
          have hstep : descStep st s = st := by simp [descStep, h2]
          rw [hstep] at h1
          exact Or.inl h1
        · have hstep : descStep st s = st := by
            simp only [descStep]
            rw [if_neg (by simp [h2])]
          rw [hstep] at h1
          exact Or.inl h1
    · exact Or.inr ⟨s2, List.mem_cons_of_mem s hs2, heq⟩

/-- Every kept sentence of the description has nonempty, terminator-free
character data. -/
theorem keptSentences_mem (text : String) :
    ∀ p ∈ keptSentences text, p.data ≠ [] ∧ ∀ c ∈ p.data, isTermCh c = false := by
  intro p hp
  rcases foldl_descStep_mem _ ([], 0) p hp with h | ⟨s, hs, heq, hne⟩
  · exact absurd h (List.not_mem_nil p)
  · have hs2 : s ∈ (splitTermRuns text.data).map (fun l => (⟨l⟩ : String)) :=
      List.mem_of_mem_take hs
    obtain ⟨l, hl, rfl⟩ := List.mem_map.mp hs2
    constructor
    · intro h0
      apply hne
      rw [heq] at h0
      exact congrArg String.mk h0
    · intro c hc
      rw [heq] at hc
      have hcl : c ∈ l := stripL_subset l c hc
      exact splitTermRuns_no_term text.data l hl c hcl

/-- Unfolding the join at a cons with nonempty tail. -/
theorem joinSepL_cons_of_ne (sep q : List Char) {rest : List (List Char)}
    (h : rest ≠ []) : joinSepL sep (q :: rest) = q ++ sep ++ joinSepL sep rest := by
  cases rest with
  | nil => exact absurd rfl h
  | cons r rs => rfl

/-- The join of pieces ending in `p` ends in `p`. -/
theorem joinSepL_concat_suffix (sep : List Char) :
    ∀ (ps : List (List Char)) (p : List Char),
      ∃ y, joinSepL sep (ps ++ [p]) = y ++ p := by
  intro ps
  induction ps with
  | nil => intro p; exact ⟨[], by simp [joinSepL]⟩
  | cons q ps2 ih =>
    intro p
    obtain ⟨y, hy⟩ := ih p
    refine ⟨q ++ sep ++ y, ?_⟩
    rw [List.cons_append, joinSepL_cons_of_ne sep q (by simp), hy]
    simp [List.append_assoc]

/-- A nonempty suffix pins down the last element. -/
theorem suffix_getLast? {l1 l2 : List Char} (h : l1 <:+ l2) (hne : l1 ≠ []) :
    l2.getLast? = l1.getLast? := by
  obtain ⟨z, rfl⟩ := h
  rw [List.getLast?_append, List.getLast?_eq_getLast l1 hne]
  rfl

/-- A list is a suffix of anything extended with it on the right
(`isSuffixOf` form). -/
theorem isSuffixOf_append_self (l y : List Char) : l.isSuffixOf (y ++ l) = true :=
  List.isSuffixOf_iff_suffix.mpr (List.suffix_append y l)

/-- The plain `". "`-join of nonempty terminator-free pieces never ends in
`"..."`: its last character is the last character of the last piece, which
is not a terminator, while `"..."` ends in one. -/
theorem joined_parts_no_ellipsis :
    ∀ (parts : List String),
      (∀ p ∈ parts, p.data ≠ [] ∧ ∀ c ∈ p.data, isTermCh c = false) →
      "...".data.isSuffixOf (pyJoin ". " parts).data = false := by
  intro parts hparts
  rw [Bool.eq_false_iff]
  intro htrue
  have hsuf := List.isSuffixOf_iff_suffix.mp htrue
  rcases List.eq_nil_or_concat parts with rfl | ⟨ps, p, rfl⟩
  · have hdata : (pyJoin ". " ([] : List String)).data = [] := rfl
    rw [hdata] at hsuf
    have hlen := hsuf.length_le
    simp at hlen
  · rw [List.concat_eq_append] at hparts hsuf
    have hp := hparts p (by simp)
    have hdata : (pyJoin ". " (ps ++ [p])).data
        = joinSepL ". ".data ((ps.map String.data) ++ [p.data]) := by
      rw [show (pyJoin ". " (ps ++ [p])).data
          = joinSepL ". ".data ((ps ++ [p]).map (·.data)) from rfl]
      simp
    obtain ⟨y, hy⟩ := joinSepL_concat_suffix ". ".data (ps.map String.data) p.data
    rw [hdata, hy] at hsuf
    have hglast : (y ++ p.data).getLast? = p.data.getLast? := by
      rw [List.getLast?_append, List.getLast?_eq_getLast p.data hp.1]
      rfl
    have h1 : (y ++ p.data).getLast? = ("...".data).getLast? :=
      suffix_getLast? hsuf (by decide)
    have h2 : ("...".data).getLast? = some '.' := by decide
    have h3 : p.data.getLast? = some '.' := by rw [← hglast, h1, h2]
    rw [List.getLast?_eq_getLast p.data hp.1] at h3
    have h4 : p.data.getLast hp.1 ∈ p.data := List.getLast_mem hp.1
    have h5 := hp.2 _ h4
    rw [Option.some.inj h3] at h5
    exact Bool.noConfusion h5

set_option maxRecDepth 8000 in
/-- C6 (counterexample): a text whose first sentence alone is exactly 200
characters followed by two one-character sentences has first-three-sentence
sum 202 > 200, yet the description is that first sentence unchanged: exactly
200 characters long and NOT ending in `"..."` (the 200-character cap is
reached without the join ever exceeding 200, so no truncation happens). -/
theorem description_exact_200_without_ellipsis :
    200 < firstThreeSentencesLen (String.mk (List.replicate 200 'a') ++ ".b.c") ∧
    (createDescription (String.mk (List.replicate 200 'a') ++ ".b.c")).length = 200 ∧
    "...".data.isSuffixOf
        (createDescription (String.mk (List.replicate 200 'a') ++ ".b.c")).data
      = false := by
  refine ⟨by decide, by decide, by decide⟩

/-- C6 (amended): the description never exceeds 200 characters; when the
first three sentences sum to over 200 characters it is exactly 200
characters long; and it ends in `"..."` exactly when the joined kept
sentences exceed 200 characters (so a kept-sentence prefix totalling
exactly 200 characters yields a 200-character description without the
ellipsis). -/
theorem description_bounded (text : String) :
    (createDescription text).length ≤ 200 ∧
    (200 < firstThreeSentencesLen text → (createDescription text).length = 200) ∧
    ("...".data.isSuffixOf (createDescription text).data = true ↔
      200 < (joinedKept text).length) := by
  have hdesc : createDescription text =
      (if 200 < (joinedKept text).length
       then ⟨(joinedKept text).data.take 197 ++ "...".data⟩
       else joinedKept text) := rfl
  have hsum3 : firstThreeSentencesLen text
      = ((((splitTermRuns text.data).map (fun l => (⟨l⟩ : String))).take 3).map
          (fun s => (pyStrip s).length)).sum := rfl
  refine ⟨?_, ?_, ?_⟩
  · rw [hdesc]
    by_cases h : 200 < (joinedKept text).length
    · rw [if_pos h, truncate_length _ h]
    · rw [if_neg h]
      omega
  · intro hgt
    rw [hsum3] at hgt
    have hst := foldl_descStep_sum
      ((((splitTermRuns text.data).map (fun l => (⟨l⟩ : String))).take 3)) ([], 0)
    have h200 : 200 ≤ (((((splitTermRuns text.data).map
        (fun l => (⟨l⟩ : String))).take 3).foldl descStep ([], 0)).2) := by
      rcases hst with h1 | h1
      · exact h1
      · omega
    have hparts := foldl_descStep_parts
      ((((splitTermRuns text.data).map (fun l => (⟨l⟩ : String))).take 3)) ([], 0)
      (by simp)
    have hkeq : ((((splitTermRuns text.data).map (fun l => (⟨l⟩ : String))).take 3).foldl
        descStep ([], 0)).1 = keptSentences text := rfl
    rw [hkeq] at hparts
    have hjoin := pyJoin_length_ge ". " (keptSentences text)
    have hjeq : pyJoin ". " (keptSentences text) = joinedKept text := rfl
    rw [hjeq] at hjoin
    have hge : 200 ≤ (joinedKept text).length := by omega
    rw [hdesc]
    by_cases h : 200 < (joinedKept text).length
    · rw [if_pos h, truncate_length _ h]
    · rw [if_neg h]
      omega
  · constructor
    · intro htrue
      by_contra hnot
      rw [hdesc, if_neg hnot] at htrue
      have hfalse := joined_parts_no_ellipsis (keptSentences text) (keptSentences_mem text)
      have hj : joinedKept text = pyJoin ". " (keptSentences text) := rfl
      rw [hj] at htrue
      rw [htrue] at hfalse
      exact Bool.noConfusion hfalse
    · intro hgt
      rw [hdesc, if_pos hgt]
      exact isSuffixOf_append_self "...".data ((joinedKept text).data.take 197)

set_option maxRecDepth 8000 in
/-- C6 (witness): the amended description theorem applied to a concrete
251-character text whose sentences exceed the threshold. -/
theorem description_bounded_witness :
    (createDescription (String.mk (List.replicate 250 'a') ++ ".")).length = 200 :=
  (description_bounded (String.mk (List.replicate 250 'a') ++ ".")).2.1 (by decide)

/-- C7: for every injected person-recognition result, the dialogue-cue scan
puts "Иван" into the characters of a scene containing the line
"ИВАН: Привет"; and a four-word upper-case prefix before the colon yields no
character name (with no NER hits the character list is empty), because the
three-token guard rejects it. -/
theorem dialogue_cue_characters :
    (∀ ner : String → List String, "Иван" ∈ extractCharacters ner "ИВАН: Привет") ∧
    extractCharacters (fun _ => []) "ИВАН ПЕТР СИДОР АННА: привет" = [] := by
  constructor
  · intro ner
    have hd : dialogueNames "ИВАН: Привет" = ["Иван"] := by decide
    rw [show extractCharacters ner "ИВАН: Привет"
        = sortStrings (normalizedNonempty (ner "ИВАН: Привет")
            ++ dialogueNames "ИВАН: Привет").dedup from rfl,
      hd]
    rw [mem_sortStrings, List.mem_dedup, List.mem_append]
    right
    simp
  · decide

/-- C7 (witness): the universally quantified half instantiated at the
trivial person-recognition model. -/
theorem dialogue_cue_characters_witness :
    "Иван" ∈ extractCharacters (fun _ => []) "ИВАН: Привет" :=
  dialogue_cue_characters.1 (fun _ => [])

/-- C8: the source's name normalizer satisfies the specification's
NameNormalizer contract on every input string: collapse internal whitespace,
reject more than 3 tokens, reject the closed screenplay-structural stopword
set by upper-cased form, else title-case. -/
theorem normalize_name_meets_contract (name : String) :
    normalizeName name = nameNormalizerContract name := by
  have hmem : ∀ t ∈ tokensL name.data, t ≠ [] ∧ ∀ c ∈ t, ¬ isPyWs c :=
    tokensAux_mem (by simp)
  have hmapdata : (pySplitWs name).map String.data = tokensL name.data := by
    rw [pySplitWs_eq, List.map_map]
    exact List.map_id'' (fun _ => rfl) _
  have hkey : pySplitWs (pyJoin " " (pySplitWs name)) = pySplitWs name := by
    rw [pySplitWs_eq (pyJoin " " (pySplitWs name)), pyJoin_data, hmapdata,
      show (" ".data : List Char) = [' '] from rfl,
      tokensL_join_tokens hmem, ← pySplitWs_eq]
  rw [show normalizeName name
      = (if 3 < (pySplitWs (pyJoin " " (pySplitWs name))).length then ""
         else if stopWords.contains (pyUpper (pyJoin " " (pySplitWs name))) then ""
         else pyTitle (pyJoin " " (pySplitWs name))) from rfl,
    hkey]
  rfl

/-- C9: `analyze_scene` recomputes location, time-of-day and
interior/exterior only when unset: each field already set on the input
scene reaches the enriched result unchanged, and the segmentation-time
fields (scene number, header, line offset, text, word count) are copied
verbatim — for every keyword configuration, person-recognition model and
set enumeration. -/
theorem analyze_scene_frame (kw : Keywords) (ner : String → List String)
    (setEnum : List String → List String) (s : Scene) :
    (s.location ≠ "" → (analyzeScene kw ner setEnum s).location = s.location) ∧
    (s.time_of_day ≠ "" →
      (analyzeScene kw ner setEnum s).time_of_day = s.time_of_day) ∧
    (s.interior_exterior ≠ "" →
      (analyzeScene kw ner setEnum s).interior_exterior = s.interior_exterior) ∧
    (analyzeScene kw ner setEnum s).scene_number = s.scene_number ∧
    (analyzeScene kw ner setEnum s).header = s.header ∧
    (analyzeScene kw ner setEnum s).line_start = s.line_start ∧
    (analyzeScene kw ner setEnum s).text = s.text ∧
    (analyzeScene kw ner setEnum s).word_count = s.word_count := by
  refine ⟨?_, ?_, ?_, rfl, rfl, rfl, rfl, rfl⟩ <;>
    · intro h
      simp [analyzeScene, h]

/-- C9 (witness): the frame theorem instantiated at a concrete scene whose
three fields are set. -/
theorem analyze_scene_frame_witness :
    (analyzeScene
        { crowd := [], vehicles := [], animals := [], sfx := [], makeup := [],
          stunts := [], weapons := [], time_day := [], time_night := [],
          time_morning := [], time_evening := [], interior := [], exterior := [] }
        (fun _ => []) (fun l => l)
        { scene_number := some 1, header := "СЦЕНА 1", line_start := 1,
          location := "Кухня", time_of_day := "День",
          interior_exterior := "Интерьер", text := "Иван входит.",
          word_count := 2, span := ["СЦЕНА 1", "Иван входит."] }).location
      = "Кухня" :=
  (analyze_scene_frame _ _ _ _).1 (by decide)

/-- C10: on an input that is empty or all whitespace, `segment` returns the
empty list: every line is blank, so the loop opens no scene, and the
fallback's paragraphs are all stripped away, so it produces no chunk
either. -/
theorem whitespace_input_no_scenes (text : String)
    (h : ∀ c ∈ text.data, isPyWs c) : segment text = [] := by
  have hlines : ∀ l ∈ pySplit "\n" text, pyStrip l = "" := pySplit_all_ws "\n" h
  have h2 : (segmentFull text).2 = [] :=
    segmentAux_no_header _ 0 0
      (fun l hl hne => absurd (hlines l hl) hne)
  have h3 : paragraphsOf text = [] := by
    rw [show paragraphsOf text
        = ((pySplit "\n\n" text).map pyStrip).filter (fun p => p ≠ "") from rfl]
    rw [List.filter_eq_nil_iff]
    intro a ha
    rw [List.mem_map] at ha
    obtain ⟨l, hl, rfl⟩ := ha
    simp [pySplit_all_ws "\n\n" h l hl]
  simp [segment, h2, createDefaultScenes_eq, h3, defaultAux]

/-- C10 (witness): the whitespace-only theorem at a concrete blank input. -/
theorem whitespace_input_no_scenes_witness : segment " \n\t " = [] :=
  whitespace_input_no_scenes " \n\t " (by decide)

end Screenplay
